import Mathlib

/-!
Verification development for the lapyx argument-parsing and document-object
subsystem (`parsing.py`, `environments.py`).  Python strings are modelled as
`List Char`; Python exceptions are modelled with `Except PyErr` (or, for
mutating operations whose partial effects matter, as a pair of the final
state and an optional raised error).  All definitions are translated
directly from the source.
-/

/-- Python exception kinds raised by the modelled code.  `fuelExhausted` is
not a Python exception: it is the out-of-fuel sentinel of the fuel-indexed
parser encoding, proved unreachable for the canonical fuel amounts. -/
inductive PyErr where
  | indexError : PyErr
  | keyError : PyErr
  | parseError : PyErr
  | fuelExhausted : PyErr
deriving DecidableEq, Inhabited

/-- The characters Python's `str.strip` family removes by default. -/
def pyWS (c : Char) : Bool :=
  c = ' ' || c = '\t' || c = '\n' || c = '\r' || c = Char.ofNat 11 || c = Char.ofNat 12

/-- Python `str.lstrip()`. -/
def lstrip (s : List Char) : List Char := s.dropWhile pyWS

/-- Python `str.rstrip()`. -/
def rstrip (s : List Char) : List Char := (s.reverse.dropWhile pyWS).reverse

/-- Python `str.strip()`. -/
def strip (s : List Char) : List Char := rstrip (lstrip s)

/-- The `bracketPairs` dictionary of `_find_matching_bracket`. -/
def bracketPair (c : Char) : Option Char :=
  if c = '{' then some '}'
  else if c = '[' then some ']'
  else if c = '(' then some ')'
  else none

/-- The scanning loop of `_find_matching_bracket`: `count` is `bracketCount`
before examining the current character, `i` its index in the original
string.  Returns the Python function's return value (`some i` for `return i`,
`none` for the final `return None`). -/
def findMBAux (o c : Char) : List Char → Int → Nat → Option Nat
  | [], _, _ => none
  | ch :: rest, count, i =>
    let count' := if ch = o then count + 1 else if ch = c then count - 1 else count
    if count' = 0 then some i else findMBAux o c rest count' (i + 1)

/-- `_find_matching_bracket` from `parsing.py`.  `string[0]` on an empty
string raises `IndexError`; a first character that is not an opening bracket
raises `KeyError` (missing dictionary key); otherwise the scan returns the
matching index or the `None` sentinel. -/
def find_matching_bracket (s : List Char) : Except PyErr (Option Nat) :=
  match s with
  | [] => .error .indexError
  | first :: rest =>
    match bracketPair first with
    | none => .error .keyError
    | some endBracket => .ok (findMBAux first endBracket rest 1 1)

/-- `balancedFor o c s n = true` iff the occurrences of the bracket pair
`o`/`c` in `s` are balanced when `n` such brackets are already open:
no prefix closes more than it opens, and the excess is zero at the end. -/
def balancedFor (o c : Char) : List Char → Nat → Bool
  | [], n => n = 0
  | x :: rest, n =>
    if x = o then balancedFor o c rest (n + 1)
    else if x = c then
      if n = 0 then false else balancedFor o c rest (n - 1)
    else balancedFor o c rest n

theorem findMBAux_balanced (o c : Char) (hoc : o ≠ c) :
    ∀ (s : List Char) (n : Nat) (i : Nat), balancedFor o c s n = true →
      findMBAux o c (s ++ [c]) ((n : Int) + 1) i = some (i + s.length) := by
  intro s
  induction s with
  | nil =>
    intro n i h
    simp only [balancedFor, decide_eq_true_eq] at h
    subst h
    rw [List.nil_append, findMBAux]
    rw [if_neg (Ne.symm hoc), if_pos rfl]
    norm_num
  | cons x rest ih =>
    intro n i h
    simp only [balancedFor] at h
    rw [List.cons_append, findMBAux]
    by_cases hxo : x = o
    · subst hxo
      rw [if_pos rfl] at h
      rw [if_pos rfl]
      have hne : ((n : Int) + 1) + 1 ≠ 0 := by positivity
      rw [if_neg hne]
      have hcast : ((n : Int) + 1) + 1 = ((n + 1 : Nat) : Int) + 1 := by push_cast; ring
      rw [hcast, ih (n + 1) (i + 1) h]
      congr 1
      simp only [List.length_cons]
      omega
    · rw [if_neg hxo] at h
      by_cases hxc : x = c
      · subst hxc
        rw [if_pos rfl] at h
        by_cases hn0 : n = 0
        · rw [if_pos hn0] at h; exact absurd h (by simp)
        · rw [if_neg hn0] at h
          rw [if_neg hxo, if_pos rfl]
          have hne : (n : Int) + 1 - 1 ≠ 0 := by
            simp only [add_sub_cancel_right]
            exact_mod_cast hn0
          rw [if_neg hne]
          have hcast : (n : Int) + 1 - 1 = ((n - 1 : Nat) : Int) + 1 := by
            omega
          rw [hcast, ih (n - 1) (i + 1) h]
          congr 1
          simp only [List.length_cons]
          omega
      · rw [if_neg hxc] at h
        rw [if_neg hxo, if_neg hxc]
        have hne : (n : Int) + 1 ≠ 0 := by positivity
        rw [if_neg hne, ih n (i + 1) h]
        congr 1
        simp only [List.length_cons]
        omega

/-- Signed surplus of `o` over `c` occurrences in `t`. -/
def excess (o c : Char) (t : List Char) : Int :=
  (t.count o : Int) - (t.count c : Int)

/-- The nesting depth maintained by the bracket scanner after consuming `t`,
starting from depth 1 at the opening bracket. -/
def scanDepth (o c : Char) (t : List Char) : Int :=
  1 + excess o c t

theorem excess_cons (o c : Char) (hoc : o ≠ c) (x : Char) (t : List Char) :
    excess o c (x :: t) =
      (if x = o then 1 else if x = c then -1 else 0) + excess o c t := by
  by_cases hxo : x = o
  · subst hxo
    rw [if_pos rfl]
    rw [excess, excess, List.count_cons_self, List.count_cons_of_ne (Ne.symm hoc)]
    push_cast
    ring
  · rw [if_neg hxo]
    by_cases hxc : x = c
    · subst hxc
      rw [if_pos rfl]
      rw [excess, excess, List.count_cons_self,
        List.count_cons_of_ne (fun hh => hxo hh.symm)]
      push_cast
      ring
    · rw [if_neg hxc]
      rw [excess, excess, List.count_cons_of_ne (fun hh => hxo hh.symm),
        List.count_cons_of_ne (fun hh => hxc hh.symm)]
      ring

theorem excess_nil (o c : Char) : excess o c [] = 0 := by
  simp [excess]

theorem findMBAux_none (o c : Char) (hoc : o ≠ c) :
    ∀ (s : List Char) (count : Int) (i : Nat),
      (∀ j : Nat, 1 ≤ j → j ≤ s.length → count + excess o c (s.take j) ≠ 0) →
      findMBAux o c s count i = none := by
  intro s
  induction s with
  | nil => intro count i _; rfl
  | cons x rest ih =>
    intro count i h
    have hone := h 1 (le_refl 1) (by simp)
    rw [show List.take 1 (x :: rest) = [x] from rfl,
      excess_cons o c hoc x [], excess_nil] at hone
    have htail : ∀ d : Int,
        (if x = o then (1 : Int) else if x = c then -1 else 0) = d →
        ∀ j : Nat, 1 ≤ j → j ≤ rest.length →
          (count + d) + excess o c (List.take j rest) ≠ 0 := by
      intro d hdj j hj1 hj2
      have h2 := h (j + 1) (by omega) (by simp only [List.length_cons]; omega)
      rw [List.take_succ_cons, excess_cons o c hoc, hdj] at h2
      intro hc
      exact h2 (by omega)
    rw [findMBAux]
    by_cases hxo : x = o
    · subst hxo
      rw [if_pos rfl] at hone ⊢
      rw [if_neg (by omega : ¬(count + 1 = 0))]
      exact ih (count + 1) (i + 1) (htail 1 (by rw [if_pos rfl]))
    · rw [if_neg hxo] at hone ⊢
      by_cases hxc : x = c
      · subst hxc
        rw [if_pos rfl] at hone ⊢
        rw [if_neg (by omega : ¬(count - 1 = 0))]
        exact ih (count - 1) (i + 1)
          (by
            have := htail (-1) (by rw [if_neg hxo, if_pos rfl])
            intro j hj1 hj2
            have h3 := this j hj1 hj2
            intro hc
            exact h3 (by omega))
      · rw [if_neg hxc] at hone ⊢
        rw [if_neg (by omega : ¬(count = 0))]
        exact ih count (i + 1)
          (by
            have := htail 0 (by rw [if_neg hxo, if_neg hxc])
            intro j hj1 hj2
            have h3 := this j hj1 hj2
            intro hc
            exact h3 (by omega))

deriving instance DecidableEq for Except

/-- Opening bracket characters tracked by `split_at_char_outside_bracket`. -/
def openB (ch : Char) : Bool := ch = '[' || ch = '{' || ch = '('

/-- Closing bracket characters tracked by `split_at_char_outside_bracket`. -/
def closeB (ch : Char) : Bool := ch = ']' || ch = '}' || ch = ')'

/-- Quote characters tracked by `split_at_char_outside_bracket`
(double quote and apostrophe). -/
def quoteB (ch : Char) : Bool := ch = '"' || ch = Char.ofNat 39

/-- The scanning loop of `split_at_char_outside_bracket`.  `prev` is
`string[i-1]` (or `none` at `i = 0`), `stack` the bracket stack, `ins` the
`in_string` flag, `i` the index of the current character.  Returns the value
of `i` after the loop (`break` index, or the string length from the
`for`-`else` clause), or `IndexError` for `stack.pop()` on an empty stack. -/
def splitAux (c : Char) : List Char → Option Char → List Char → Bool → Nat →
    Except PyErr Nat
  | [], _, _, _, i => .ok i
  | ch :: rest, prev, stack, ins, i =>
    if openB ch then
      if 0 < i ∧ prev ≠ some '\\' then splitAux c rest (some ch) (ch :: stack) ins (i + 1)
      else splitAux c rest (some ch) stack ins (i + 1)
    else if closeB ch then
      if 0 < i ∧ prev ≠ some '\\' then
        match stack with
        | [] => .error .indexError
        | _ :: tl => splitAux c rest (some ch) tl ins (i + 1)
      else splitAux c rest (some ch) stack ins (i + 1)
    else if quoteB ch then
      if 0 < i ∧ prev ≠ some '\\' then splitAux c rest (some ch) stack (!ins) (i + 1)
      else splitAux c rest (some ch) stack ins (i + 1)
    else if ch = c then
      if stack.isEmpty ∧ ins = false then .ok i
      else splitAux c rest (some ch) stack ins (i + 1)
    else splitAux c rest (some ch) stack ins (i + 1)

/-- `split_at_char_outside_bracket` from `parsing.py`, for a non-`None`
input string (the Python `string is None` early return, which yields an
empty list instead of a pair, is outside every claim and not modelled). -/
def split_at_char_outside_bracket (s : List Char) (split_char : Char) :
    Except PyErr (List Char × List Char) :=
  match splitAux split_char s none [] false 0 with
  | .error e => .error e
  | .ok i =>
    if i < s.length then .ok (strip (s.take i), strip (s.drop (i + 1)))
    else .ok (strip s, [])

example : split_at_char_outside_bracket ['{', 'a', ',', 'b', '}'] ',' =
    .ok (['{', 'a'], ['b', '}']) := by decide

example : split_at_char_outside_bracket ['{', '}'] ',' = .error .indexError := by decide

example : split_at_char_outside_bracket
    ['a', '=', '{', '1', ',', '2', '}', ',', 'b', '=', '3'] ',' =
    .ok (['a', '=', '{', '1', ',', '2', '}'], ['b', '=', '3']) := by decide

/-! An `Arg` is an ordered sequence of `KeyVal` entries; a `KeyVal` is a key
together with an optional `Arg` value (the class invariant of `parsing.py`:
`self._value` is always `None` or an `Arg`). -/
mutual
inductive Arg where
  | mk : List KeyVal → Arg
inductive KeyVal where
  | mk : List Char → Option Arg → KeyVal
end

mutual

def decEqArg : (a b : Arg) → Decidable (a = b)
  | .mk xs, .mk ys =>
    match decEqKVList xs ys with
    | isTrue h => isTrue (by rw [h])
    | isFalse h => isFalse (by intro hh; cases hh; exact h rfl)

def decEqKV : (a b : KeyVal) → Decidable (a = b)
  | .mk k v, .mk k2 v2 =>
    match decEq k k2 with
    | isFalse h => isFalse (by intro hh; cases hh; exact h rfl)
    | isTrue hk =>
      match v, v2 with
      | none, none => isTrue (by rw [hk])
      | none, some _ => isFalse (by intro hh; cases hh)
      | some _, none => isFalse (by intro hh; cases hh)
      | some a, some b =>
        match decEqArg a b with
        | isTrue h => isTrue (by rw [hk, h])
        | isFalse h => isFalse (by intro hh; cases hh; exact h rfl)

def decEqKVList : (a b : List KeyVal) → Decidable (a = b)
  | [], [] => isTrue rfl
  | [], _ :: _ => isFalse (by intro hh; cases hh)
  | _ :: _, [] => isFalse (by intro hh; cases hh)
  | x :: xs, y :: ys =>
    match decEqKV x y with
    | isFalse h => isFalse (by intro hh; cases hh; exact h rfl)
    | isTrue hx =>
      match decEqKVList xs ys with
      | isTrue h => isTrue (by rw [hx, h])
      | isFalse h => isFalse (by intro hh; cases hh; exact h rfl)

end

instance : DecidableEq Arg := decEqArg
instance : DecidableEq KeyVal := decEqKV

/-- The entry list `self._args` of an `Arg`. -/
def Arg.entries : Arg → List KeyVal
  | .mk kvs => kvs

/-- `self._key` of a `KeyVal`. -/
def KeyVal.key : KeyVal → List Char
  | .mk k _ => k

/-- `self._value` of a `KeyVal`. -/
def KeyVal.value : KeyVal → Option Arg
  | .mk _ v => v


theorem lstrip_length_le (s : List Char) : (lstrip s).length ≤ s.length :=
  List.Sublist.length_le (List.IsSuffix.sublist (List.dropWhile_suffix pyWS))

theorem rstrip_length_le (s : List Char) : (rstrip s).length ≤ s.length := by
  rw [rstrip, List.length_reverse]
  calc (s.reverse.dropWhile pyWS).length ≤ s.reverse.length :=
        List.Sublist.length_le (List.IsSuffix.sublist (List.dropWhile_suffix pyWS))
    _ = s.length := List.length_reverse s

theorem strip_length_le (s : List Char) : (strip s).length ≤ s.length :=
  le_trans (rstrip_length_le (lstrip s)) (lstrip_length_le s)

theorem splitAux_ok_le (c : Char) :
    ∀ (s : List Char) (prev : Option Char) (stack : List Char) (ins : Bool) (i j : Nat),
      splitAux c s prev stack ins i = .ok j → j ≤ i + s.length := by
  intro s
  induction s with
  | nil =>
    intro prev stack ins i j h
    simp only [splitAux, Except.ok.injEq] at h
    omega
  | cons x rest ih =>
    intro prev stack ins i j h
    simp only [splitAux] at h
    simp only [List.length_cons]
    split_ifs at h with h1 h2 h3 h4 h5 h6 h7
    · have := ih (some x) (x :: stack) ins (i + 1) j h; omega
    · have := ih (some x) stack ins (i + 1) j h; omega
    · cases stack with
      | nil => exact absurd h (by simp)
      | cons hd tl => have := ih (some x) tl ins (i + 1) j h; omega
    · have := ih (some x) stack ins (i + 1) j h; omega
    · have := ih (some x) stack (!ins) (i + 1) j h; omega
    · have := ih (some x) stack ins (i + 1) j h; omega
    · simp only [Except.ok.injEq] at h; omega
    · have := ih (some x) stack ins (i + 1) j h; omega
    · have := ih (some x) stack ins (i + 1) j h; omega

theorem split_unfold_ok {c : Char} {s : List Char} {i : Nat}
    (hs : splitAux c s none [] false 0 = .ok i) :
    split_at_char_outside_bracket s c =
      if i < s.length then .ok (strip (s.take i), strip (s.drop (i + 1)))
      else .ok (strip s, []) := by
  rw [split_at_char_outside_bracket, hs]

theorem split_unfold_err {c : Char} {s : List Char} {e : PyErr}
    (hs : splitAux c s none [] false 0 = .error e) :
    split_at_char_outside_bracket s c = .error e := by
  rw [split_at_char_outside_bracket, hs]

theorem split_ok_len {s : List Char} {c : Char} {a b : List Char}
    (h : split_at_char_outside_bracket s c = .ok (a, b)) :
    a.length ≤ s.length ∧ (b = [] ∨ b.length < s.length) := by
  cases hs : splitAux c s none [] false 0 with
  | error e => rw [split_unfold_err hs] at h; cases h
  | ok i =>
    rw [split_unfold_ok hs] at h
    by_cases hi : i < s.length
    · rw [if_pos hi] at h
      simp only [Except.ok.injEq, Prod.mk.injEq] at h
      obtain ⟨ha, hb⟩ := h
      subst ha; subst hb
      constructor
      · calc (strip (s.take i)).length ≤ (s.take i).length := strip_length_le _
          _ ≤ s.length := by rw [List.length_take]; omega
      · right
        calc (strip (s.drop (i + 1))).length ≤ (s.drop (i + 1)).length :=
              strip_length_le _
          _ = s.length - (i + 1) := by rw [List.length_drop]
          _ < s.length := by omega
    · rw [if_neg hi] at h
      simp only [Except.ok.injEq, Prod.mk.injEq] at h
      obtain ⟨ha, hb⟩ := h
      subst ha; subst hb
      exact ⟨strip_length_le s, Or.inl rfl⟩


/-! The parser's recursion is on ever-shorter strings, which is not a
structural recursion; it is encoded with an explicit fuel parameter.  The
canonical entry points below supply fuel exceeding the length-based
recursion-depth bound, and `parse_fuel_sufficient` proves the out-of-fuel
sentinel unreachable for them. -/
mutual

/-- `KeyVal.parse_value` from `parsing.py`: `None`/empty input gives `None`;
otherwise strip, remove one layer of enclosing braces if present, and parse
the interior as an `Arg` (the Python `Arg(value)` constructor call).  A
nonempty all-whitespace input reaches `value[0]` on the empty stripped
string, an `IndexError`. -/
def parse_valueF : Nat → List Char → Except PyErr (Option Arg)
  | 0, _ => .error .fuelExhausted
  | fuel + 1, value =>
    if value = [] then .ok none
    else
      match strip value with
      | [] => .error .indexError
      | c0 :: rest =>
        let v' := if c0 = '{' ∧ (c0 :: rest).getLast? = some '}'
          then strip rest.dropLast else c0 :: rest
        match parse_argsF fuel v' with
        | .error e => .error e
        | .ok kvs => .ok (some (Arg.mk kvs))

/-- `KeyVal.__init__` with a string value: parse the value via
`parse_value`, then normalize an empty `Arg` value to `None`. -/
def mkKeyValStrF : Nat → List Char → List Char → Except PyErr KeyVal
  | 0, _, _ => .error .fuelExhausted
  | fuel + 1, key, value =>
    match parse_valueF fuel value with
    | .error e => .error e
    | .ok none => .ok (KeyVal.mk key none)
    | .ok (some (Arg.mk [])) => .ok (KeyVal.mk key none)
    | .ok (some (Arg.mk (kv :: kvs))) => .ok (KeyVal.mk key (some (Arg.mk (kv :: kvs))))

/-- `Arg.parse_args` from `parsing.py`: repeatedly strip leading whitespace,
split off one comma-segment, split it at `=`, and emit a `KeyVal` (bare key
when the `=`-split produced no value text, a parsed value otherwise). -/
def parse_argsF : Nat → List Char → Except PyErr (List KeyVal)
  | 0, _ => .error .fuelExhausted
  | fuel + 1, args =>
    if args = [] then .ok []
    else
      match split_at_char_outside_bracket (lstrip args) ',' with
      | .error e => .error e
      | .ok (arg, rest) =>
        match split_at_char_outside_bracket arg '=' with
        | .error e => .error e
        | .ok (key, value) =>
          if value = [] then
            match parse_argsF fuel rest with
            | .error e => .error e
            | .ok tail => .ok (KeyVal.mk key none :: tail)
          else
            match mkKeyValStrF fuel key value with
            | .error e => .error e
            | .ok kv =>
              match parse_argsF fuel rest with
              | .error e => .error e
              | .ok tail => .ok (kv :: tail)

end

/-- `Arg.parse_args` at its canonical (sufficient) fuel. -/
def parse_args (args : List Char) : Except PyErr (List KeyVal) :=
  parse_argsF (4 * args.length + 1) args

/-- `KeyVal.parse_value` at its canonical (sufficient) fuel. -/
def parse_value (value : List Char) : Except PyErr (Option Arg) :=
  parse_valueF (4 * value.length + 3) value

/-- `KeyVal.__init__` with a string value, at its canonical fuel. -/
def mkKeyValStr (key value : List Char) : Except PyErr KeyVal :=
  mkKeyValStrF (4 * value.length + 4) key value

/-- `Arg.__init__` with a string argument: delegate to `Arg.parse_args`. -/
def ArgOfString (s : List Char) : Except PyErr Arg :=
  match parse_args s with
  | .error e => .error e
  | .ok kvs => .ok (Arg.mk kvs)

/-- `Arg._is_empty` from `parsing.py` (under the class invariant that every
element of `self._args` is a `KeyVal`): true iff the entry list is empty. -/
def Arg.is_empty : Arg → Bool
  | .mk [] => true
  | .mk (_ :: _) => false

/-- `KeyVal._has_value` from `parsing.py` (under the class invariant that
`self._value` is `None` or an `Arg`). -/
def KeyVal.has_value : KeyVal → Bool
  | .mk _ none => false
  | .mk _ (some a) => !a.is_empty

mutual

/-- `KeyVal.__str__`: bare key when there is no value; `key = value`
(unbraced) when the value is a single valueless entry; `key = {value}`
(braced) otherwise. -/
def KeyVal.render : KeyVal → List Char
  | .mk k none => k
  | .mk k (some v) =>
    match v.entries with
    | [kv0] =>
      if kv0.has_value then k ++ (' ' :: '=' :: ' ' :: '{' :: (Arg.render v ++ ['}']))
      else k ++ (' ' :: '=' :: ' ' :: Arg.render v)
    | _ => k ++ (' ' :: '=' :: ' ' :: '{' :: (Arg.render v ++ ['}']))

/-- `Arg.__str__`: the bare key when the Arg is a single valueless entry,
otherwise the `", "`-join of the entries' renderings. -/
def Arg.render : Arg → List Char
  | .mk [] => renderList []
  | .mk (kv0 :: rest) =>
    match rest, kv0.value with
    | [], none => kv0.key
    | _, _ => renderList (kv0 :: rest)

/-- `", ".join(str(arg) for arg in args)`. -/
def renderList : List KeyVal → List Char
  | [] => []
  | [kv] => KeyVal.render kv
  | kv :: rest => KeyVal.render kv ++ ',' :: ' ' :: renderList rest

end

example : ArgOfString ['b', ',', ','] =
    .ok (Arg.mk [KeyVal.mk ['b'] none, KeyVal.mk [] none]) := by decide

example : ArgOfString [' '] = .ok (Arg.mk [KeyVal.mk [] none]) := by decide

example : Arg.render (Arg.mk [KeyVal.mk ['b'] none, KeyVal.mk [] none]) =
    ['b', ',', ' '] := by decide

example : ArgOfString ['b', ',', ' '] = .ok (Arg.mk [KeyVal.mk ['b'] none]) := by decide

example :
    ArgOfString ['k', '=', '{', 'a', ',', 'b', '=', 'c', '}'] =
    .ok (Arg.mk [KeyVal.mk ['k'] (some (Arg.mk
      [KeyVal.mk ['a'] none,
       KeyVal.mk ['b'] (some (Arg.mk [KeyVal.mk ['c'] none]))]))]) := by decide

example :
    Arg.render (Arg.mk [KeyVal.mk ['k'] (some (Arg.mk
      [KeyVal.mk ['a'] none,
       KeyVal.mk ['b'] (some (Arg.mk [KeyVal.mk ['c'] none]))]))]) =
    ['k', ' ', '=', ' ', '{', 'a', ',', ' ', 'b', ' ', '=', ' ', 'c', '}'] := by decide

example :
    ArgOfString ['k', ' ', '=', ' ', '{', 'a', ',', ' ', 'b', ' ', '=', ' ', 'c', '}'] =
    .ok (Arg.mk [KeyVal.mk ['k'] (some (Arg.mk
      [KeyVal.mk ['a'] none,
       KeyVal.mk ['b'] (some (Arg.mk [KeyVal.mk ['c'] none]))]))]) := by decide

/-- `Arg.__contains__` for a string key: first-match linear scan.
(The `KeyVal` overload recurses on itself unconditionally and is exercised
by no claim; it is not modelled.) -/
def containsKey (a : Arg) (k : List Char) : Bool :=
  a.entries.any (fun kv => kv.key = k)

/-- `Arg.__getitem__` with a string key: the first matching entry's value
(`None` or an `Arg`), or `None` when no entry matches — the two cases are
deliberately conflated by the source. -/
def Arg.getitemStr (a : Arg) (k : List Char) : Option Arg :=
  match a.entries.find? (fun kv => kv.key = k) with
  | some kv => kv.value
  | none => none

/-- `Arg.get_keyval`: raises `LatexParsingError` when the key is absent;
otherwise the first matching entry (the implicit `return None` fall-through
after the loop is the `Option`). -/
def Arg.get_keyval (a : Arg) (k : List Char) : Except PyErr (Option KeyVal) :=
  if containsKey a k = false then .error .parseError
  else .ok (a.entries.find? (fun kv => kv.key = k))

/-- Python list slice `l[:i]` (negative index counts from the end; bounds
clamp). -/
def pytake {α : Type} (l : List α) (i : Int) : List α :=
  if i < 0 then l.take ((l.length : Int) + i).toNat else l.take i.toNat

/-- Python list slice `l[i:]`. -/
def pydrop {α : Type} (l : List α) (i : Int) : List α :=
  if i < 0 then l.drop ((l.length : Int) + i).toNat else l.drop i.toNat

/-- Python list item assignment `l[i] = x`: `IndexError` outside
`-len ≤ i < len`. -/
def pyset {α : Type} (l : List α) (i : Int) (x : α) : Except PyErr (List α) :=
  let j : Int := if i < 0 then (l.length : Int) + i else i
  if 0 ≤ j ∧ j < (l.length : Int) then .ok (l.set j.toNat x)
  else .error .indexError

/-- Python `l.insert(i, x)`: clamps the index, never raises. -/
def pyinsert {α : Type} (l : List α) (i : Int) (x : α) : List α :=
  let j : Int := if i < 0 then max 0 ((l.length : Int) + i) else min i (l.length : Int)
  l.insertIdx j.toNat x

/-- Python `del l[i]`: `IndexError` outside `-len ≤ i < len`. -/
def pydel {α : Type} (l : List α) (i : Int) : Except PyErr (List α) :=
  let j : Int := if i < 0 then (l.length : Int) + i else i
  if 0 ≤ j ∧ j < (l.length : Int) then .ok (l.eraseIdx j.toNat)
  else .error .indexError

/-- The string-key loop of `Arg.__delitem__`: `some` of the list with the
first match removed, `none` when no entry matches. -/
def delitemStrGo (k : List Char) : List KeyVal → Option (List KeyVal)
  | [] => none
  | kv :: rest =>
    if kv.key = k then some rest
    else
      match delitemStrGo k rest with
      | some rest' => some (kv :: rest')
      | none => none

/-- `Arg.__delitem__`: the resulting state paired with the optionally raised
error.  The integer branch slices the entry list and then falls through to
the unconditional `raise KeyError`; the string branch removes the first
matching entry and returns, raising (without mutation) only when no entry
matches. -/
def Arg.delitem : Arg → Int ⊕ List Char → Arg × Option PyErr
  | .mk kvs, .inl i => (Arg.mk (pytake kvs i ++ pydrop kvs (i + 1)), some .keyError)
  | a, .inr k =>
    match delitemStrGo k a.entries with
    | some l => (Arg.mk l, none)
    | none => (a, some .keyError)


/-- The `new_args`/`new_value` argument accepted by `Arg.update` and
`KeyVal.update_value`: `None`, a raw string, or an `Arg`.  (The Python
union also admits lists of `KeyVal`s and bare `KeyVal`s; no claim exercises
those alternatives.) -/
inductive PyVal where
  | none : PyVal
  | str : List Char → PyVal
  | arg : Arg → PyVal

theorem sizeOf_list_pos {α : Type} [SizeOf α] (l : List α) : 1 ≤ sizeOf l := by
  cases l
  · simp
  · simp
    omega

theorem sizeOf_arg_entries (a : Arg) : sizeOf a = 1 + sizeOf a.entries := by
  cases a with
  | mk l => simp [Arg.entries]

theorem sizeOf_keyval_value (kv : KeyVal) : sizeOf kv.value + 2 ≤ sizeOf kv := by
  cases kv with
  | mk k v =>
    simp [KeyVal.value]
    have := sizeOf_list_pos k
    omega

/-- Replace the first entry whose key is `k` (the in-place mutation of the
object returned by `get_keyval`). -/
def replaceFirstKV : List KeyVal → List Char → KeyVal → List KeyVal
  | [], _, _ => []
  | kv :: rest, k, kv2 =>
    if kv.key = k then kv2 :: rest else kv :: replaceFirstKV rest k kv2

mutual

/-- `KeyVal.update_value` restricted to an `Arg`-typed new value: the
emptiness check clears the value; an absent current value adopts the new
value wholesale; otherwise the current value is recursively merged.
Fuel-indexed; `updateValueArg` below supplies sufficient fuel. -/
def updateValueArgF : Nat → KeyVal → Arg → Except PyErr KeyVal
  | 0, _, _ => .error .fuelExhausted
  | fuel + 1, kv, a =>
    if a.entries.length = 0 then .ok (KeyVal.mk kv.key none)
    else
      match kv.value with
      | none => .ok (KeyVal.mk kv.key (some a))
      | some cur =>
        match updateMergeF fuel cur a with
        | .error e => .error e
        | .ok m => .ok (KeyVal.mk kv.key (some m))

/-- Merge mode of `Arg.update`: fold the new entries left-to-right into the
receiver (`for keyval in new_args: ...`). -/
def updateMergeF : Nat → Arg → Arg → Except PyErr Arg
  | 0, _, _ => .error .fuelExhausted
  | fuel + 1, self, a => updateFoldF fuel self a.entries

def updateFoldF : Nat → Arg → List KeyVal → Except PyErr Arg
  | 0, _, _ => .error .fuelExhausted
  | _ + 1, self, [] => .ok self
  | fuel + 1, self, kv :: rest =>
    if containsKey self kv.key then
      match updateFirstF fuel self.entries kv.key kv.value with
      | .error e => .error e
      | .ok l => updateFoldF fuel (Arg.mk l) rest
    else updateFoldF fuel (Arg.mk (self.entries ++ [kv])) rest

/-- `self.get_keyval(k).update_value(v)` in merge mode: apply
`update_value v` to the first entry whose key is `k` and store the result
at that position. -/
def updateFirstF : Nat → List KeyVal → List Char → Option Arg → Except PyErr (List KeyVal)
  | 0, _, _, _ => .error .fuelExhausted
  | fuel + 1, l, k, v =>
    match l.find? (fun kv => kv.key = k) with
    | none => .ok l
    | some kv =>
      match
        (match v with
         | none => (.ok (KeyVal.mk kv.key none) : Except PyErr KeyVal)
         | some a => updateValueArgF fuel kv a) with
      | .error e => .error e
      | .ok kv2 => .ok (replaceFirstKV l k kv2)

end

mutual

/-- Size of an `Arg` tree, used only to compute sufficient fuel. -/
def Arg.size : Arg → Nat
  | .mk kvs => 1 + sizeKVList kvs

def KeyVal.size : KeyVal → Nat
  | .mk _ none => 1
  | .mk _ (some a) => 1 + Arg.size a

def sizeKVList : List KeyVal → Nat
  | [] => 0
  | kv :: rest => 1 + KeyVal.size kv + sizeKVList rest

end

/-- `updateValueArgF` at its canonical (sufficient) fuel. -/
def updateValueArg (kv : KeyVal) (a : Arg) : Except PyErr KeyVal :=
  updateValueArgF (4 * Arg.size a + 8) kv a

/-- `updateMergeF` at its canonical (sufficient) fuel. -/
def updateMerge (self : Arg) (a : Arg) : Except PyErr Arg :=
  updateMergeF (4 * Arg.size a + 7) self a

/-- `KeyVal.update_value` from `parsing.py`: empty/`None` clears the value
(destructive overwrite); otherwise the new value is coerced to an `Arg`
(parsing a string) and adopted or recursively merged. -/
def KeyVal.update_value (kv : KeyVal) (nv : PyVal) : Except PyErr KeyVal :=
  match nv with
  | .none => .ok (KeyVal.mk kv.key none)
  | .str s =>
    if s = [] then .ok (KeyVal.mk kv.key none)
    else
      match ArgOfString s with
      | .error e => .error e
      | .ok a => updateValueArg kv a
  | .arg a => updateValueArg kv a

/-- `KeyVal.__init__` with a `None`, string or `Arg` value (including the
final normalization of an empty `Arg` value to `None`). -/
def mkKeyValPy (k : List Char) (nv : PyVal) : Except PyErr KeyVal :=
  match nv with
  | .none => .ok (KeyVal.mk k none)
  | .str s => mkKeyValStr k s
  | .arg (Arg.mk []) => .ok (KeyVal.mk k none)
  | .arg (Arg.mk (kv :: kvs)) => .ok (KeyVal.mk k (some (Arg.mk (kv :: kvs))))

/-- Apply `update_value nv` to the first entry whose key is `k`
(keyed mode of `Arg.update`). -/
def updateFirstPy (l : List KeyVal) (k : List Char) (nv : PyVal) :
    Except PyErr (List KeyVal) :=
  match l.find? (fun kv => kv.key = k) with
  | none => .ok l
  | some kv =>
    match KeyVal.update_value kv nv with
    | .error e => .error e
    | .ok kv2 => .ok (replaceFirstKV l k kv2)

/-- Merge mode of `Arg.update` (`key` absent or empty): coerce `new_args`
to an `Arg` and merge entry by entry; `None` cannot be coerced and raises
`LatexParsingError`. -/
def Arg.updateNoKey (self : Arg) (new_args : PyVal) : Except PyErr Arg :=
  match new_args with
  | .none => .error .parseError
  | .str s =>
    match ArgOfString s with
    | .error e => .error e
    | .ok a => updateMerge self a
  | .arg a => updateMerge self a

/-- `Arg.update` from `parsing.py`.  Keyed mode (key present and nonempty):
update the first entry with that key in place, or append a fresh
`KeyVal(key, new_args)`.  Merge mode otherwise. -/
def Arg.update (self : Arg) (new_args : PyVal) (key : Option (List Char)) :
    Except PyErr Arg :=
  match key with
  | some k =>
    if k = [] then Arg.updateNoKey self new_args
    else if containsKey self k then
      match updateFirstPy self.entries k new_args with
      | .error e => .error e
      | .ok l => .ok (Arg.mk l)
    else
      match mkKeyValPy k new_args with
      | .error e => .error e
      | .ok kv => .ok (Arg.mk (self.entries ++ [kv]))
  | none => Arg.updateNoKey self new_args

example :
    (do
      let a0 ← ArgOfString ['w', '=', '5']
      let a1 ← Arg.update a0 (.str ['c', '=', 'r']) none
      Arg.update a1 .none (some ['w'])) =
    .ok (Arg.mk [KeyVal.mk ['w'] none,
      KeyVal.mk ['c'] (some (Arg.mk [KeyVal.mk ['r'] none]))]) := by decide

/-- The `argument` parameter of the `CommandBase` mutators: a raw string or
an `Arg` (the `dict` alternative is exercised by no claim). -/
inductive ArgInput where
  | str : List Char → ArgInput
  | arg : Arg → ArgInput

/-- `if not isinstance(argument, Arg): argument = Arg(argument)`. -/
def coerceArg : ArgInput → Except PyErr Arg
  | .str s => ArgOfString s
  | .arg a => .ok a

/-- The state shared by `Macro` and `Environment` (`environments.py`,
class `CommandBase`): a name, the argument list, and the parallel
required/optional flag list. -/
structure CommandBase where
  name : List Char
  arguments : List Arg
  argumentsOptional : List Bool
deriving DecidableEq

/-- `CommandBase.set_argument`: final state and optionally raised error.
The index guard fires before any mutation. -/
def CommandBase.set_argument (c : CommandBase) (argument : ArgInput) (index : Int)
    (opt : Bool) : CommandBase × Option PyErr :=
  if (c.arguments.length : Int) ≤ index then (c, some .indexError)
  else
    match coerceArg argument with
    | .error e => (c, some e)
    | .ok a =>
      match pyset c.arguments index a with
      | .error e => (c, some e)
      | .ok args2 =>
        match pyset c.argumentsOptional index opt with
        | .error e => ({ c with arguments := args2 }, some e)
        | .ok opts2 => ({ c with arguments := args2, argumentsOptional := opts2 }, none)

/-- `CommandBase.insert_argument`: the guard rejects `index > len`;
`list.insert` itself never raises. -/
def CommandBase.insert_argument (c : CommandBase) (argument : ArgInput) (index : Int)
    (opt : Bool) : CommandBase × Option PyErr :=
  if (c.arguments.length : Int) < index then (c, some .indexError)
  else
    match coerceArg argument with
    | .error e => (c, some e)
    | .ok a =>
      ({ c with
          arguments := pyinsert c.arguments index a,
          argumentsOptional := pyinsert c.argumentsOptional index opt }, none)

/-- `CommandBase.remove_argument`: the guard rejects `index >= len`, then
three slicing cases. -/
def CommandBase.remove_argument (c : CommandBase) (index : Int) :
    CommandBase × Option PyErr :=
  if (c.arguments.length : Int) ≤ index then (c, some .indexError)
  else if index = 0 then
    ({ c with
        arguments := c.arguments.drop 1,
        argumentsOptional := c.argumentsOptional.drop 1 }, none)
  else if index = (c.arguments.length : Int) - 1 then
    ({ c with
        arguments := c.arguments.dropLast,
        argumentsOptional := c.argumentsOptional.dropLast }, none)
  else
    ({ c with
        arguments := pytake c.arguments index ++ pydrop c.arguments (index + 1),
        argumentsOptional :=
          pytake c.argumentsOptional index ++ pydrop c.argumentsOptional (index + 1) },
     none)

/-- Content items of an `Environment`.  The positional content operations
never inspect them, so raw text stands in for the
string/Table/Figure/Macro/Environment union. -/
inductive EnvContent where
  | str : List Char → EnvContent
deriving DecidableEq

/-- `Environment` (`environments.py`): a `CommandBase` plus a content
list. -/
structure Environment extends CommandBase where
  content : List EnvContent
deriving DecidableEq

/-- `Environment.set_content`: index guard, then `self.content[index] = c`. -/
def Environment.set_content (env : Environment) (item : EnvContent) (index : Int) :
    Environment × Option PyErr :=
  if (env.content.length : Int) ≤ index then (env, some .indexError)
  else
    match pyset env.content index item with
    | .error e => (env, some e)
    | .ok l => ({ env with content := l }, none)

/-- `Environment.insert_content`: guard rejects `index > len`, then
`list.insert`. -/
def Environment.insert_content (env : Environment) (item : EnvContent) (index : Int) :
    Environment × Option PyErr :=
  if (env.content.length : Int) < index then (env, some .indexError)
  else ({ env with content := pyinsert env.content index item }, none)

/-- `Environment.remove_content`: guard rejects `index >= len`, then
`del self.content[index]`. -/
def Environment.remove_content (env : Environment) (index : Int) :
    Environment × Option PyErr :=
  if (env.content.length : Int) ≤ index then (env, some .indexError)
  else
    match pydel env.content index with
    | .error e => (env, some e)
    | .ok l => ({ env with content := l }, none)

theorem find_matching_bracket_cons (b cl : Char) (rest : List Char)
    (hb : bracketPair b = some cl) :
    find_matching_bracket (b :: rest) = .ok (findMBAux b cl rest 1 1) := by
  simp only [find_matching_bracket, hb]

/-- C5: for every string `"{" + inner + "}"` with `inner` balanced in each
of the pairs `{}`, `[]`, `()`, `_find_matching_bracket` returns the index
`len(inner) + 1` of the final `}`; and for every string starting with an
opening bracket whose nesting depth never returns to 0 before the string is
exhausted, it returns the `None` sentinel rather than raising. -/
theorem C5_bracket_scanner :
    (∀ inner : List Char,
      balancedFor '{' '}' inner 0 = true →
      balancedFor '[' ']' inner 0 = true →
      balancedFor '(' ')' inner 0 = true →
      find_matching_bracket ('{' :: (inner ++ ['}'])) = .ok (some (inner.length + 1)))
    ∧
    (∀ (b cl : Char) (rest : List Char),
      bracketPair b = some cl →
      (∀ j : Nat, j ≤ rest.length → 1 ≤ j → scanDepth b cl (rest.take j) ≠ 0) →
      find_matching_bracket (b :: rest) = .ok none) := by
  constructor
  · intro inner h1 _ _
    rw [find_matching_bracket_cons '{' '}' (inner ++ ['}']) (by decide)]
    have := findMBAux_balanced '{' '}' (by decide) inner 0 1 h1
    norm_num at this
    rw [this, Nat.add_comm]
  · intro b cl rest hb hdep
    have hcases : (b = '{' ∧ cl = '}') ∨ (b = '[' ∧ cl = ']') ∨ (b = '(' ∧ cl = ')') := by
      rw [bracketPair] at hb
      split_ifs at hb with h1 h2 h3 <;> simp only [Option.some.injEq] at hb
      · exact Or.inl ⟨h1, hb.symm⟩
      · exact Or.inr (Or.inl ⟨h2, hb.symm⟩)
      · exact Or.inr (Or.inr ⟨h3, hb.symm⟩)
    have hne : b ≠ cl := by
      rcases hcases with ⟨h1, h2⟩ | ⟨h1, h2⟩ | ⟨h1, h2⟩ <;> subst h1 <;> subst h2 <;> decide
    rw [find_matching_bracket_cons b cl rest hb]
    rw [findMBAux_none b cl hne rest 1 1]
    intro j hj1 hj2
    have := hdep j hj2 hj1
    rw [scanDepth] at this
    intro hc
    exact this (by omega)

theorem C5_bracket_scanner_witness :
    find_matching_bracket ('{' :: (['a', '[', 'b', ']'] ++ ['}'])) = .ok (some 5) ∧
    find_matching_bracket ('(' :: ['(', '(']) = .ok none := by
  constructor
  · exact C5_bracket_scanner.1 ['a', '[', 'b', ']'] (by decide) (by decide) (by decide)
  · exact C5_bracket_scanner.2 '(' ')' ['(', '('] (by decide) (by decide)

theorem splitAux_cons (c ch : Char) (s : List Char) (prev : Option Char)
    (stack : List Char) (ins : Bool) (i : Nat) :
    splitAux c (ch :: s) prev stack ins i =
      (if openB ch then
        if 0 < i ∧ prev ≠ some '\\' then splitAux c s (some ch) (ch :: stack) ins (i + 1)
        else splitAux c s (some ch) stack ins (i + 1)
      else if closeB ch then
        if 0 < i ∧ prev ≠ some '\\' then
          match stack with
          | [] => .error .indexError
          | _ :: tl => splitAux c s (some ch) tl ins (i + 1)
        else splitAux c s (some ch) stack ins (i + 1)
      else if quoteB ch then
        if 0 < i ∧ prev ≠ some '\\' then splitAux c s (some ch) stack (!ins) (i + 1)
        else splitAux c s (some ch) stack ins (i + 1)
      else if ch = c then
        if stack.isEmpty ∧ ins = false then .ok i
        else splitAux c s (some ch) stack ins (i + 1)
      else splitAux c s (some ch) stack ins (i + 1)) := rfl

/-- C10 (implicit): `split_at_char_outside_bracket` is not total — a closing
bracket at index ≥ 1, not preceded by a backslash, scanned while the bracket
stack is empty, raises an uncaught `IndexError` from `stack.pop()`; in
particular on the inputs `"{}"` and `"a}b"` (the opening brace at index 0 is
never pushed). -/
theorem C10_split_pop_empty :
    (∀ (c d : Char) (rest : List Char) (prev : Option Char) (ins : Bool) (i : Nat),
      (d = ']' ∨ d = '}' ∨ d = ')') → prev ≠ some '\\' → 1 ≤ i →
      splitAux c (d :: rest) prev [] ins i = .error .indexError)
    ∧ split_at_char_outside_bracket ['{', '}'] ',' = .error .indexError
    ∧ split_at_char_outside_bracket ['a', '}', 'b'] ',' = .error .indexError := by
  refine ⟨?_, by decide, by decide⟩
  intro c d rest prev ins i hd hprev hi
  have hop : ¬(openB d = true) := by
    rcases hd with h | h | h <;> subst h <;> decide
  have hcl : closeB d = true := by
    rcases hd with h | h | h <;> subst h <;> decide
  rw [splitAux, if_neg hop, if_pos hcl, if_pos ⟨by omega, hprev⟩]

theorem C10_split_pop_empty_witness :
    splitAux ',' ['}'] (some 'a') [] false 1 = .error .indexError :=
  C10_split_pop_empty.1 ',' '}' [] (some 'a') false 1 (by decide) (by decide)
    (by decide)

/-- C3 counterexample: the claim implies that splitting `"{a,b}"` at `','`
returns the whole trimmed string with an empty remainder; the code instead
splits at the comma inside the braces (the `{` at index 0 is never pushed,
because the escape test `i > 0 and not string[i-1] == "\\"` fails at
index 0). -/
theorem C3_counterexample :
    split_at_char_outside_bracket ['{', 'a', ',', 'b', '}'] ',' ≠
      .ok (['{', 'a', ',', 'b', '}'], []) := by decide

theorem closeB_not_openB {ch : Char} (h : closeB ch = true) : openB ch = false := by
  rcases (by simpa [closeB] using h : (ch = ']' ∨ ch = '}') ∨ ch = ')') with (rfl | rfl) | rfl
    <;> decide

theorem quoteB_not_openB {ch : Char} (h : quoteB ch = true) : openB ch = false := by
  rcases (by simpa [quoteB] using h : ch = '"' ∨ ch = Char.ofNat 39) with rfl | rfl
    <;> decide

theorem quoteB_not_closeB {ch : Char} (h : quoteB ch = true) : closeB ch = false := by
  rcases (by simpa [quoteB] using h : ch = '"' ∨ ch = Char.ofNat 39) with rfl | rfl
    <;> decide

/-- C3 (amended): a bracket or quote character is left untracked iff it is
at index 0 (no preceding character) or immediately preceded by a backslash.
Untracked direction: at index 0, and after a backslash, every tracked-class
character just advances the scan, touching neither stack nor flag. Tracked
direction, per class, for an unescaped character at index at least 1: an
opening bracket is pushed; a closing bracket pops the top of a nonempty
stack and raises IndexError (pop of empty list) on an empty one; a quote
toggles the in-string flag. In particular the opening bracket at index 0 of
`"{a,b}"` is not pushed, so the split at `','` happens at the comma inside
the braces, returning `["{a", "b}"]`. -/
theorem C3_escape_amended :
    split_at_char_outside_bracket ['{', 'a', ',', 'b', '}'] ',' =
      .ok (['{', 'a'], ['b', '}'])
    ∧ (∀ (c ch : Char) (s : List Char),
        (openB ch || closeB ch || quoteB ch) = true →
        splitAux c (ch :: s) none [] false 0 = splitAux c s (some ch) [] false 1)
    ∧ (∀ (c ch : Char) (s stack : List Char) (ins : Bool) (i : Nat),
        (openB ch || closeB ch || quoteB ch) = true →
        splitAux c (ch :: s) (some '\\') stack ins i =
          splitAux c s (some ch) stack ins (i + 1))
    ∧ (∀ (c ch : Char) (s stack : List Char) (prev : Option Char) (ins : Bool)
        (i : Nat), openB ch = true → prev ≠ some '\\' → 1 ≤ i →
        splitAux c (ch :: s) prev stack ins i =
          splitAux c s (some ch) (ch :: stack) ins (i + 1))
    ∧ (∀ (c ch hd : Char) (s tl : List Char) (prev : Option Char) (ins : Bool)
        (i : Nat), closeB ch = true → prev ≠ some '\\' → 1 ≤ i →
        splitAux c (ch :: s) prev (hd :: tl) ins i =
          splitAux c s (some ch) tl ins (i + 1))
    ∧ (∀ (c ch : Char) (s : List Char) (prev : Option Char) (ins : Bool)
        (i : Nat), closeB ch = true → prev ≠ some '\\' → 1 ≤ i →
        splitAux c (ch :: s) prev [] ins i = .error .indexError)
    ∧ (∀ (c ch : Char) (s stack : List Char) (prev : Option Char) (ins : Bool)
        (i : Nat), quoteB ch = true → prev ≠ some '\\' → 1 ≤ i →
        splitAux c (ch :: s) prev stack ins i =
          splitAux c s (some ch) stack (!ins) (i + 1)) := by
  refine ⟨by decide, ?_, ?_, ?_, ?_, ?_, ?_⟩
  · intro c ch s hch
    have hnot : ¬(0 < 0 ∧ (none : Option Char) ≠ some '\\') := by
      intro hcontra
      exact absurd hcontra.1 (by omega)
    rw [splitAux_cons]
    by_cases ho : openB ch = true
    · rw [if_pos ho, if_neg hnot]
    · rw [if_neg ho]
      by_cases hc2 : closeB ch = true
      · rw [if_pos hc2, if_neg hnot]
      · rw [if_neg hc2]
        have hq : quoteB ch = true := by
          rcases Bool.or_eq_true_iff.mp hch with h | h
          · rcases Bool.or_eq_true_iff.mp h with h2 | h2
            · exact absurd h2 ho
            · exact absurd h2 hc2
          · exact h
        rw [if_pos hq, if_neg hnot]
  · intro c ch s stack ins i hch
    have hnot : ¬(0 < i ∧ (some '\\' : Option Char) ≠ some '\\') := by
      intro hcontra
      exact hcontra.2 rfl
    rw [splitAux_cons]
    by_cases ho : openB ch = true
    · rw [if_pos ho, if_neg hnot]
    · rw [if_neg ho]
      by_cases hc2 : closeB ch = true
      · rw [if_pos hc2, if_neg hnot]
      · rw [if_neg hc2]
        have hq : quoteB ch = true := by
          rcases Bool.or_eq_true_iff.mp hch with h | h
          · rcases Bool.or_eq_true_iff.mp h with h2 | h2
            · exact absurd h2 ho
            · exact absurd h2 hc2
          · exact h
        rw [if_pos hq, if_neg hnot]
  · intro c ch s stack prev ins i ho hprev hi
    rw [splitAux_cons, if_pos ho, if_pos ⟨by omega, hprev⟩]
  · intro c ch hd s tl prev ins i hcl hprev hi
    rw [splitAux_cons,
      if_neg (by rw [closeB_not_openB hcl]; exact fun hh => nomatch hh),
      if_pos hcl, if_pos ⟨by omega, hprev⟩]
  · intro c ch s prev ins i hcl hprev hi
    rw [splitAux_cons,
      if_neg (by rw [closeB_not_openB hcl]; exact fun hh => nomatch hh),
      if_pos hcl, if_pos ⟨by omega, hprev⟩]
  · intro c ch s stack prev ins i hq hprev hi
    rw [splitAux_cons,
      if_neg (by rw [quoteB_not_openB hq]; exact fun hh => nomatch hh),
      if_neg (by rw [quoteB_not_closeB hq]; exact fun hh => nomatch hh),
      if_pos hq, if_pos ⟨by omega, hprev⟩]

theorem C3_escape_amended_witness :
    splitAux ',' ['{', 'x'] none [] false 0 = splitAux ',' ['x'] (some '{') [] false 1 ∧
    splitAux ',' ['}', 'x'] (some '\\') ['('] true 3 =
      splitAux ',' ['x'] (some '}') ['('] true (3 + 1) ∧
    splitAux ',' ['[', 'x'] (some 'a') ['('] false 2 =
      splitAux ',' ['x'] (some '[') ['[', '('] false (2 + 1) ∧
    splitAux ',' [')', 'x'] (some 'a') ['('] false 2 =
      splitAux ',' ['x'] (some ')') [] false (2 + 1) ∧
    splitAux ',' ['}'] (some 'a') [] true 1 = .error .indexError ∧
    splitAux ',' ['"', 'x'] (some 'a') [] false 1 =
      splitAux ',' ['x'] (some '"') [] (!false) (1 + 1) := by
  refine ⟨?_, ?_, ?_, ?_, ?_, ?_⟩
  · exact C3_escape_amended.2.1 ',' '{' ['x'] (by decide)
  · exact C3_escape_amended.2.2.1 ',' '}' ['x'] ['('] true 3 (by decide)
  · exact C3_escape_amended.2.2.2.1 ',' '[' ['x'] ['('] (some 'a') false 2 (by decide)
      (by decide) (by decide)
  · exact C3_escape_amended.2.2.2.2.1 ',' ')' '(' ['x'] [] (some 'a') false 2
      (by decide) (by decide) (by decide)
  · exact C3_escape_amended.2.2.2.2.2.1 ',' '}' [] (some 'a') true 1
      (by decide) (by decide) (by decide)
  · exact C3_escape_amended.2.2.2.2.2.2 ',' '"' ['x'] [] (some 'a') false 1
      (by decide) (by decide) (by decide)

theorem parse_argsF_succ (fuel : Nat) (args : List Char) :
    parse_argsF (fuel + 1) args =
      (if args = [] then .ok [] else
        match split_at_char_outside_bracket (lstrip args) ',' with
        | .error e => .error e
        | .ok (arg, rest) =>
          match split_at_char_outside_bracket arg '=' with
          | .error e => .error e
          | .ok (key, value) =>
            if value = [] then
              match parse_argsF fuel rest with
              | .error e => .error e
              | .ok tail => .ok (KeyVal.mk key none :: tail)
            else
              match mkKeyValStrF fuel key value with
              | .error e => .error e
              | .ok kv =>
                match parse_argsF fuel rest with
                | .error e => .error e
                | .ok tail => .ok (kv :: tail)) := rfl

theorem parse_argsF_step (fuel : Nat) (args arg rest key value : List Char)
    (hne : ¬(args = []))
    (h1 : split_at_char_outside_bracket (lstrip args) ',' = .ok (arg, rest))
    (h2 : split_at_char_outside_bracket arg '=' = .ok (key, value)) :
    parse_argsF (fuel + 1) args =
      (if value = [] then
        match parse_argsF fuel rest with
        | .error e => .error e
        | .ok tail => .ok (KeyVal.mk key none :: tail)
      else
        match mkKeyValStrF fuel key value with
        | .error e => .error e
        | .ok kv =>
          match parse_argsF fuel rest with
          | .error e => .error e
          | .ok tail => .ok (kv :: tail)) := by
  rw [parse_argsF_succ, if_neg hne]
  simp only [h1, h2]

theorem parse_argsF_nil (fuel : Nat) : parse_argsF (fuel + 1) [] = .ok [] := rfl

/-- C4 counterexample: `Arg(" ")` does not have zero entries — the
all-whitespace string produces one `KeyVal` with an empty key. -/
theorem C4_counterexample :
    ArgOfString [' '] = .ok (Arg.mk [KeyVal.mk [] none]) ∧
    ¬ArgOfString [' '] = .ok (Arg.mk []) := by decide

/-- C4 (amended): constructing an `Arg` from the empty string yields zero
entries; constructing one from a nonempty all-whitespace string does not
raise but yields exactly one `KeyVal` with empty key and no value. -/
theorem C4_empty_whitespace_amended :
    ArgOfString [] = .ok (Arg.mk []) ∧
    (∀ s : List Char, s ≠ [] → s.all pyWS = true →
      ArgOfString s = .ok (Arg.mk [KeyVal.mk [] none])) := by
  constructor
  · decide
  · intro s hne hws
    have hl : lstrip s = [] := by
      rw [lstrip, List.dropWhile_eq_nil_iff]
      intro x hx
      exact List.all_eq_true.mp hws x hx
    have h1 : split_at_char_outside_bracket (lstrip s) ',' = .ok ([], []) := by
      rw [hl]; rfl
    have hparse : parse_args s = .ok [KeyVal.mk [] none] := by
      rw [parse_args, parse_argsF_step (4 * s.length) s [] [] [] [] hne h1 rfl,
        if_pos rfl]
      obtain ⟨m, hm⟩ : ∃ m, 4 * s.length = m + 1 := by
        cases s with
        | nil => exact absurd rfl hne
        | cons a t => exact ⟨4 * (a :: t).length - 1, by simp [List.length_cons]; omega⟩
      rw [hm, parse_argsF_nil]
    simp only [ArgOfString, hparse]

theorem C4_empty_whitespace_amended_witness :
    ArgOfString [' ', ' '] = .ok (Arg.mk [KeyVal.mk [] none]) :=
  C4_empty_whitespace_amended.2 [' ', ' '] (by decide) (by decide)

/-- C6: `arg[k]` returns `None` without raising for a missing key, while
`arg.get_keyval(k)` raises; for a present key both answer from the first
matching entry (`__getitem__` its value, `get_keyval` the entry itself). -/
theorem C6_lookup_asymmetry :
    ∀ (a : Arg) (k : List Char),
      (containsKey a k = false →
        Arg.getitemStr a k = none ∧ Arg.get_keyval a k = .error .parseError) ∧
      (containsKey a k = true →
        ∃ kv : KeyVal, a.entries.find? (fun kv2 => kv2.key = k) = some kv ∧
          Arg.getitemStr a k = kv.value ∧ Arg.get_keyval a k = .ok (some kv)) := by
  intro a k
  constructor
  · intro h
    have hf : a.entries.find? (fun kv2 => kv2.key = k) = none := by
      rw [List.find?_eq_none]
      intro x hx hpx
      have : a.entries.any (fun kv2 => kv2.key = k) = true :=
        List.any_eq_true.mpr ⟨x, hx, hpx⟩
      rw [containsKey] at h
      rw [h] at this
      cases this
    refine ⟨?_, ?_⟩
    · rw [Arg.getitemStr, hf]
    · rw [Arg.get_keyval, if_pos h]
  · intro h
    have hf : (a.entries.find? (fun kv2 => kv2.key = k)).isSome = true := by
      rw [List.find?_isSome]
      rw [containsKey, List.any_eq_true] at h
      obtain ⟨x, hx, hpx⟩ := h
      exact ⟨x, hx, hpx⟩
    cases hfind : a.entries.find? (fun kv2 => kv2.key = k) with
    | none => rw [hfind] at hf; cases hf
    | some kv =>
      refine ⟨kv, rfl, ?_, ?_⟩
      · rw [Arg.getitemStr, hfind]
      · rw [Arg.get_keyval, if_neg (by rw [h]; simp), hfind]

theorem C6_lookup_asymmetry_witness :
    (Arg.getitemStr (Arg.mk [KeyVal.mk ['x'] none]) ['z'] = none ∧
      Arg.get_keyval (Arg.mk [KeyVal.mk ['x'] none]) ['z'] = .error .parseError) ∧
    (∃ kv : KeyVal,
      (Arg.mk [KeyVal.mk ['x'] none]).entries.find? (fun kv2 => kv2.key = ['x']) =
        some kv ∧
      Arg.getitemStr (Arg.mk [KeyVal.mk ['x'] none]) ['x'] = kv.value ∧
      Arg.get_keyval (Arg.mk [KeyVal.mk ['x'] none]) ['x'] = .ok (some kv)) :=
  ⟨(C6_lookup_asymmetry (Arg.mk [KeyVal.mk ['x'] none]) ['z']).1 (by decide),
   (C6_lookup_asymmetry (Arg.mk [KeyVal.mk ['x'] none]) ['x']).2 (by decide)⟩

theorem delitemStrGo_isSome (k : List Char) : ∀ l : List KeyVal,
    (delitemStrGo k l).isSome = l.any (fun kv => kv.key = k) := by
  intro l
  induction l with
  | nil => rfl
  | cons kv rest ih =>
    rw [delitemStrGo]
    by_cases hk : kv.key = k
    · rw [if_pos hk]
      simp [List.any_cons, hk]
    · rw [if_neg hk]
      cases hgo : delitemStrGo k rest with
      | some rest2 =>
        rw [hgo] at ih
        simp only [Option.isSome_some] at ih
        simp [List.any_cons, hk, ← ih]
      | none =>
        rw [hgo] at ih
        simp only [Option.isSome_none] at ih
        simp [List.any_cons, hk, ← ih]

/-- C9 (implicit): integer-indexed `del arg[i]` always raises `KeyError`
(even for a valid index) yet the slicing mutation persists — for a valid
index the final entry list lacks exactly position `i`; string-key deletion
returns normally (no error) when the key is present and raises `KeyError`
without mutating when it is absent. -/
theorem C9_delitem :
    (∀ (a : Arg) (i : Int), (Arg.delitem a (.inl i)).2 = some .keyError) ∧
    (∀ (a : Arg) (i : Nat), i < a.entries.length →
      (Arg.delitem a (.inl (i : Int))).1 = Arg.mk (a.entries.eraseIdx i)) ∧
    (∀ (a : Arg) (k : List Char), containsKey a k = true →
      (Arg.delitem a (.inr k)).2 = none) ∧
    (∀ (a : Arg) (k : List Char), containsKey a k = false →
      Arg.delitem a (.inr k) = (a, some .keyError)) := by
  refine ⟨?_, ?_, ?_, ?_⟩
  · intro a i
    cases a with
    | mk kvs => rfl
  · intro a i hi
    cases a with
    | mk kvs =>
      simp only [Arg.delitem, Arg.entries] at hi ⊢
      have ht : pytake kvs (i : Int) = kvs.take i := by
        rw [pytake, if_neg (by omega)]
        norm_num
      have hd : pydrop kvs ((i : Int) + 1) = kvs.drop (i + 1) := by
        rw [pydrop, if_neg (by omega)]
        congr 1
      rw [ht, hd, List.eraseIdx_eq_take_drop_succ]
  · intro a k h
    have := delitemStrGo_isSome k a.entries
    rw [containsKey] at h
    rw [h] at this
    cases hgo : delitemStrGo k a.entries with
    | none => rw [hgo] at this; cases this
    | some l =>
      cases a with
      | mk kvs =>
        simp only [Arg.entries] at hgo
        simp only [Arg.delitem, Arg.entries, hgo]
  · intro a k h
    have := delitemStrGo_isSome k a.entries
    rw [containsKey] at h
    rw [h] at this
    cases hgo : delitemStrGo k a.entries with
    | some l => rw [hgo] at this; cases this
    | none =>
      cases a with
      | mk kvs =>
        simp only [Arg.entries] at hgo
        simp only [Arg.delitem, Arg.entries, hgo]

theorem C9_delitem_witness :
    (Arg.delitem (Arg.mk [KeyVal.mk ['x'] none]) (.inl (0 : Int))).2 =
      some .keyError ∧
    (Arg.delitem (Arg.mk [KeyVal.mk ['x'] none]) (.inl ((0 : Nat) : Int))).1 =
      Arg.mk ([KeyVal.mk ['x'] none].eraseIdx 0) ∧
    (Arg.delitem (Arg.mk [KeyVal.mk ['x'] none]) (.inr ['x'])).2 = none ∧
    Arg.delitem (Arg.mk [KeyVal.mk ['x'] none]) (.inr ['z']) =
      (Arg.mk [KeyVal.mk ['x'] none], some .keyError) :=
  ⟨C9_delitem.1 (Arg.mk [KeyVal.mk ['x'] none]) 0,
   C9_delitem.2.1 (Arg.mk [KeyVal.mk ['x'] none]) 0 (by decide),
   C9_delitem.2.2.1 (Arg.mk [KeyVal.mk ['x'] none]) ['x'] (by decide),
   C9_delitem.2.2.2 (Arg.mk [KeyVal.mk ['x'] none]) ['z'] (by decide)⟩

theorem renderList_intercalate : ∀ kvs : List KeyVal,
    renderList kvs = List.intercalate [',', ' '] (kvs.map KeyVal.render) := by
  intro kvs
  induction kvs with
  | nil => rfl
  | cons kv rest ih =>
    cases rest with
    | nil =>
      show KeyVal.render kv = _
      simp [List.intercalate, List.intersperse_singleton]
    | cons kv2 rest2 =>
      have harm : renderList (kv :: kv2 :: rest2) =
          KeyVal.render kv ++ ',' :: ' ' :: renderList (kv2 :: rest2) := rfl
      rw [harm, ih]
      simp only [List.map_cons, List.intercalate, List.intersperse_cons_cons,
        List.flatten]
      simp

/-- C8: `str(Arg("standalone"))` is `"standalone"` (no braces) and
`str(Arg([KeyVal("k"), KeyVal("j")]))` is `"k, j"`; in general `Arg.__str__`
renders a single valueless entry as the bare key and otherwise joins the
entries' `KeyVal.__str__` renderings with `", "`, where `KeyVal.__str__`
is `key = value` unbraced when the value is a single valueless entry and
`key = {value}` braced otherwise. -/
theorem C8_render :
    Except.map Arg.render (ArgOfString "standalone".toList) = .ok "standalone".toList
    ∧ Arg.render (Arg.mk [KeyVal.mk ['k'] none, KeyVal.mk ['j'] none]) =
        ['k', ',', ' ', 'j']
    ∧ (∀ k : List Char, Arg.render (Arg.mk [KeyVal.mk k none]) = k)
    ∧ (∀ kvs : List KeyVal, (¬∃ k : List Char, kvs = [KeyVal.mk k none]) →
        Arg.render (Arg.mk kvs) = List.intercalate [',', ' '] (kvs.map KeyVal.render))
    ∧ (∀ (k : List Char) (v : Arg) (kv0 : KeyVal),
        v.entries = [kv0] → kv0.has_value = false →
        KeyVal.render (KeyVal.mk k (some v)) = k ++ ' ' :: '=' :: ' ' :: Arg.render v)
    ∧ (∀ (k : List Char) (v : Arg),
        (¬∃ kv0 : KeyVal, v.entries = [kv0] ∧ kv0.has_value = false) →
        KeyVal.render (KeyVal.mk k (some v)) =
          k ++ ' ' :: '=' :: ' ' :: '{' :: (Arg.render v ++ ['}'])) := by
  refine ⟨by decide, by decide, ?_, ?_, ?_, ?_⟩
  · intro k
    rfl
  · intro kvs hno
    cases kvs with
    | nil =>
      show renderList [] = _
      rw [renderList_intercalate]
    | cons kv rest =>
      cases rest with
      | nil =>
        cases kv with
        | mk k v =>
          cases v with
          | none => exact absurd ⟨k, rfl⟩ hno
          | some a =>
            show renderList [KeyVal.mk k (some a)] = _
            rw [renderList_intercalate]
      | cons kv2 rest2 =>
        show renderList (kv :: kv2 :: rest2) = _
        rw [renderList_intercalate]
  · intro k v kv0 hent hhv
    cases v with
    | mk kvs =>
      simp only [Arg.entries] at hent
      subst hent
      show (if kv0.has_value then _ else _) = _
      rw [if_neg (by rw [hhv]; exact fun hc => nomatch hc)]
  · intro k v hno
    cases v with
    | mk kvs =>
      cases kvs with
      | nil => rfl
      | cons kv0 rest =>
        cases rest with
        | nil =>
          have hh : kv0.has_value = true := by
            cases hv : kv0.has_value with
            | true => rfl
            | false => exact absurd ⟨kv0, by simp [Arg.entries], hv⟩ hno
          show (if kv0.has_value then _ else _) = _
          rw [if_pos hh]
        | cons kv2 rest2 => rfl

theorem C8_render_witness :
    Arg.render (Arg.mk [KeyVal.mk ['a', 'b'] none]) = ['a', 'b'] ∧
    Arg.render (Arg.mk [KeyVal.mk ['k'] (some (Arg.mk [KeyVal.mk ['v'] none]))]) =
      List.intercalate [',', ' ']
        ([KeyVal.mk ['k'] (some (Arg.mk [KeyVal.mk ['v'] none]))].map KeyVal.render) ∧
    KeyVal.render (KeyVal.mk ['k'] (some (Arg.mk [KeyVal.mk ['v'] none]))) =
      ['k'] ++ ' ' :: '=' :: ' ' :: Arg.render (Arg.mk [KeyVal.mk ['v'] none]) ∧
    KeyVal.render (KeyVal.mk ['k'] (some (Arg.mk [KeyVal.mk ['a'] none, KeyVal.mk ['b'] none]))) =
      ['k'] ++ ' ' :: '=' :: ' ' :: '{' ::
        (Arg.render (Arg.mk [KeyVal.mk ['a'] none, KeyVal.mk ['b'] none]) ++ ['}']) :=
  ⟨C8_render.2.2.1 ['a', 'b'],
   C8_render.2.2.2.1 [KeyVal.mk ['k'] (some (Arg.mk [KeyVal.mk ['v'] none]))]
     (by intro ⟨k, hk⟩; cases hk),
   C8_render.2.2.2.2.1 ['k'] (Arg.mk [KeyVal.mk ['v'] none]) (KeyVal.mk ['v'] none)
     rfl rfl,
   C8_render.2.2.2.2.2 ['k'] (Arg.mk [KeyVal.mk ['a'] none, KeyVal.mk ['b'] none])
     (by intro ⟨kv0, hkv, hhv⟩; simp [Arg.entries] at hkv)⟩

/-- C7: every positional mutator of the `Macro`/`Environment` argument and
content lists validates the index first and raises `IndexError` with the
state (argument list, optional-flags list, content list) exactly unchanged:
`set_argument`/`remove_argument`/`set_content`/`remove_content` for
`index ≥ len`, `insert_argument`/`insert_content` for `index > len`. -/
theorem C7_index_guards :
    (∀ (c : CommandBase) (argIn : ArgInput) (i : Int) (opt : Bool),
      (c.arguments.length : Int) ≤ i →
      CommandBase.set_argument c argIn i opt = (c, some .indexError)) ∧
    (∀ (c : CommandBase) (argIn : ArgInput) (i : Int) (opt : Bool),
      (c.arguments.length : Int) < i →
      CommandBase.insert_argument c argIn i opt = (c, some .indexError)) ∧
    (∀ (c : CommandBase) (i : Int),
      (c.arguments.length : Int) ≤ i →
      CommandBase.remove_argument c i = (c, some .indexError)) ∧
    (∀ (env : Environment) (item : EnvContent) (i : Int),
      (env.content.length : Int) ≤ i →
      Environment.set_content env item i = (env, some .indexError)) ∧
    (∀ (env : Environment) (item : EnvContent) (i : Int),
      (env.content.length : Int) < i →
      Environment.insert_content env item i = (env, some .indexError)) ∧
    (∀ (env : Environment) (i : Int),
      (env.content.length : Int) ≤ i →
      Environment.remove_content env i = (env, some .indexError)) := by
  refine ⟨?_, ?_, ?_, ?_, ?_, ?_⟩
  · intro c argIn i opt h
    rw [CommandBase.set_argument, if_pos h]
  · intro c argIn i opt h
    rw [CommandBase.insert_argument, if_pos h]
  · intro c i h
    rw [CommandBase.remove_argument, if_pos h]
  · intro env item i h
    rw [Environment.set_content, if_pos h]
  · intro env item i h
    rw [Environment.insert_content, if_pos h]
  · intro env i h
    rw [Environment.remove_content, if_pos h]

theorem C7_index_guards_witness :
    CommandBase.set_argument (CommandBase.mk ['m'] [] []) (.str ['x']) 0 false =
      (CommandBase.mk ['m'] [] [], some .indexError) ∧
    CommandBase.insert_argument (CommandBase.mk ['m'] [] []) (.str ['x']) 1 false =
      (CommandBase.mk ['m'] [] [], some .indexError) ∧
    CommandBase.remove_argument (CommandBase.mk ['m'] [] []) 0 =
      (CommandBase.mk ['m'] [] [], some .indexError) ∧
    Environment.set_content (Environment.mk (CommandBase.mk ['e'] [] []) [])
      (.str ['x']) 0 =
      (Environment.mk (CommandBase.mk ['e'] [] []) [], some .indexError) ∧
    Environment.insert_content (Environment.mk (CommandBase.mk ['e'] [] []) [])
      (.str ['x']) 1 =
      (Environment.mk (CommandBase.mk ['e'] [] []) [], some .indexError) ∧
    Environment.remove_content (Environment.mk (CommandBase.mk ['e'] [] []) []) 0 =
      (Environment.mk (CommandBase.mk ['e'] [] []) [], some .indexError) :=
  ⟨C7_index_guards.1 (CommandBase.mk ['m'] [] []) (.str ['x']) 0 false (by decide),
   C7_index_guards.2.1 (CommandBase.mk ['m'] [] []) (.str ['x']) 1 false (by decide),
   C7_index_guards.2.2.1 (CommandBase.mk ['m'] [] []) 0 (by decide),
   C7_index_guards.2.2.2.1 (Environment.mk (CommandBase.mk ['e'] [] []) [])
     (.str ['x']) 0 (by decide),
   C7_index_guards.2.2.2.2.1 (Environment.mk (CommandBase.mk ['e'] [] []) [])
     (.str ['x']) 1 (by decide),
   C7_index_guards.2.2.2.2.2 (Environment.mk (CommandBase.mk ['e'] [] []) [])
     0 (by decide)⟩

/-- C2: starting from `Arg("width=5cm")`, `update("color=red")` appends the
new key (existing entry kept), giving the same tree as parsing
`"width = 5cm, color = red"`; then `update(None, key="width")` clears the
width entry's value to `None` — so it renders as the bare key `width` —
while the entry stays in place and the length is unchanged. -/
theorem C2_update_scenario :
    ArgOfString "width=5cm".toList =
      .ok (Arg.mk [KeyVal.mk "width".toList
        (some (Arg.mk [KeyVal.mk "5cm".toList none]))]) ∧
    Arg.update
      (Arg.mk [KeyVal.mk "width".toList (some (Arg.mk [KeyVal.mk "5cm".toList none]))])
      (.str "color=red".toList) none =
      .ok (Arg.mk
        [KeyVal.mk "width".toList (some (Arg.mk [KeyVal.mk "5cm".toList none])),
         KeyVal.mk "color".toList (some (Arg.mk [KeyVal.mk "red".toList none]))]) ∧
    ArgOfString "width = 5cm, color = red".toList =
      .ok (Arg.mk
        [KeyVal.mk "width".toList (some (Arg.mk [KeyVal.mk "5cm".toList none])),
         KeyVal.mk "color".toList (some (Arg.mk [KeyVal.mk "red".toList none]))]) ∧
    Arg.update
      (Arg.mk
        [KeyVal.mk "width".toList (some (Arg.mk [KeyVal.mk "5cm".toList none])),
         KeyVal.mk "color".toList (some (Arg.mk [KeyVal.mk "red".toList none]))])
      .none (some "width".toList) =
      .ok (Arg.mk
        [KeyVal.mk "width".toList none,
         KeyVal.mk "color".toList (some (Arg.mk [KeyVal.mk "red".toList none]))]) ∧
    (Arg.mk
      [KeyVal.mk "width".toList none,
       KeyVal.mk "color".toList
         (some (Arg.mk [KeyVal.mk "red".toList none]))]).entries.length =
      (Arg.mk
        [KeyVal.mk "width".toList (some (Arg.mk [KeyVal.mk "5cm".toList none])),
         KeyVal.mk "color".toList
           (some (Arg.mk [KeyVal.mk "red".toList none]))]).entries.length ∧
    Arg.getitemStr
      (Arg.mk
        [KeyVal.mk "width".toList none,
         KeyVal.mk "color".toList (some (Arg.mk [KeyVal.mk "red".toList none]))])
      "width".toList = none ∧
    KeyVal.render (KeyVal.mk "width".toList none) = "width".toList := by
  refine ⟨by decide, by decide, by decide, by decide, by decide, by decide, by decide⟩

/-- C1 counterexample: `A = Arg("b,,")` parses without error to the two
entries `[b, <empty key>]`, but `str(A)` is `"b, "`, which re-parses to the
single entry `[b]`: the (key, value) sequences differ, and `str` of the
re-parse (`"b"`) also differs from `str(A)` (`"b, "`), so the second pass is
not a fixed point either. -/
theorem C1_counterexample :
    ArgOfString ['b', ',', ','] =
      .ok (Arg.mk [KeyVal.mk ['b'] none, KeyVal.mk [] none]) ∧
    Arg.render (Arg.mk [KeyVal.mk ['b'] none, KeyVal.mk [] none]) = ['b', ',', ' '] ∧
    ArgOfString ['b', ',', ' '] = .ok (Arg.mk [KeyVal.mk ['b'] none]) ∧
    ¬(Arg.mk [KeyVal.mk ['b'] none] =
      Arg.mk [KeyVal.mk ['b'] none, KeyVal.mk [] none]) ∧
    ¬(Arg.render (Arg.mk [KeyVal.mk ['b'] none]) =
      Arg.render (Arg.mk [KeyVal.mk ['b'] none, KeyVal.mk [] none])) := by decide

/-- Characters with no role in the argument grammar: not brackets, braces,
parentheses, comma, equals, quotes, backslash, or whitespace. -/
def plainChar (ch : Char) : Bool :=
  !(ch = '{' || ch = '}' || ch = '[' || ch = ']' || ch = '(' || ch = ')' ||
    ch = ',' || ch = '=' || ch = '"' || ch = Char.ofNat 39 || ch = '\\' || pyWS ch)

/-- A well-formed key: nonempty and made of plain characters only. -/
def plainKey (k : List Char) : Bool := !k.isEmpty && k.all plainChar

/-- First character exists and is plain. -/
def headPlain : List Char → Bool
  | [] => false
  | x :: _ => plainChar x

/-- Last character exists and is plain or a closing brace. -/
def lastOk (s : List Char) : Bool :=
  match s.getLast? with
  | some y => plainChar y || y = '}'
  | none => false

theorem plainChar_not_special {ch : Char} (h : plainChar ch = true) :
    openB ch = false ∧ closeB ch = false ∧ quoteB ch = false ∧ pyWS ch = false ∧
    ch ≠ ',' ∧ ch ≠ '=' ∧ ch ≠ '{' ∧ ch ≠ '}' ∧ ch ≠ '\\' := by
  rw [plainChar, Bool.not_eq_true'] at h
  simp only [Bool.or_eq_false_iff, decide_eq_false_iff_not] at h
  obtain ⟨⟨⟨⟨⟨⟨⟨⟨⟨⟨⟨h1, h2⟩, h3⟩, h4⟩, h5⟩, h6⟩, h7⟩, h8⟩, h9⟩, h10⟩, h11⟩, h12⟩ := h
  refine ⟨?_, ?_, ?_, h12, h7, h8, h1, h2, h11⟩
  · rw [openB]
    simp [h1, h3, h5]
  · rw [closeB]
    simp [h2, h4, h6]
  · rw [quoteB]
    simp [h9, h10]

theorem lstrip_of_headPlain {s : List Char} (h : headPlain s = true) :
    lstrip s = s := by
  cases s with
  | nil => cases h
  | cons x t =>
    rw [headPlain] at h
    rw [lstrip, List.dropWhile_cons, if_neg]
    rw [(plainChar_not_special h).2.2.2.1]
    exact fun hc => nomatch hc

theorem rstrip_of_last {s : List Char} {y : Char} (hy : s.getLast? = some y)
    (h : pyWS y = false) : rstrip s = s := by
  have hne : s ≠ [] := by
    intro hc
    rw [hc] at hy
    cases hy
  have hdec : s = s.dropLast ++ [s.getLast hne] := (List.dropLast_append_getLast hne).symm
  have hgl : s.getLast hne = y := by
    have := List.getLast?_eq_getLast s hne
    rw [hy] at this
    exact (Option.some.injEq _ _ ▸ this.symm)
  rw [rstrip, hdec, hgl, List.reverse_append]
  simp only [List.reverse_cons, List.reverse_nil, List.nil_append, List.singleton_append]
  rw [List.dropWhile_cons, if_neg (by rw [h]; exact fun hc => nomatch hc)]
  rw [List.reverse_cons, List.reverse_reverse]

theorem lastOk_not_ws {s : List Char} {y : Char} (hy : s.getLast? = some y)
    (h : lastOk s = true) : pyWS y = false := by
  rw [lastOk, hy] at h
  rcases Bool.or_eq_true_iff.mp h with h2 | h2
  · exact (plainChar_not_special h2).2.2.2.1
  · have : y = '}' := by simpa using h2
    subst this
    rfl

theorem strip_eq_self {s : List Char} (h1 : headPlain s = true)
    (h2 : lastOk s = true) : strip s = s := by
  rw [strip, lstrip_of_headPlain h1]
  cases hy : s.getLast? with
  | none =>
    rw [lastOk, hy] at h2
    cases h2
  | some y => exact rstrip_of_last hy (lastOk_not_ws hy h2)

/-- Abstract scan of rendered text by the bracket/quote tracker of
`split_at_char_outside_bracket`, specialised to the character set produced
by `Arg.__str__` on well-formed trees: `scanOk c t d = some d2` states that
scanning `t` from brace depth `d` stays inside the grammar (plain
characters, spaces, commas and equals signs, with the split character `c`
occurring only at positive depth) and ends at depth `d2`. -/
def scanOk (c : Char) : List Char → Nat → Option Nat
  | [], d => some d
  | ch :: t, d =>
    if ch = '{' then scanOk c t (d + 1)
    else if ch = '}' then
      match d with
      | 0 => none
      | Nat.succ d2 => scanOk c t d2
    else if (plainChar ch || ch = ' ' || ch = ',' || ch = '=') = true ∧
        (ch ≠ c ∨ 0 < d) then scanOk c t d
    else none

theorem scanOk_cons (c ch : Char) (t : List Char) (d : Nat) :
    scanOk c (ch :: t) d =
      (if ch = '{' then scanOk c t (d + 1)
      else if ch = '}' then
        match d with
        | 0 => none
        | Nat.succ d2 => scanOk c t d2
      else if (plainChar ch || ch = ' ' || ch = ',' || ch = '=') = true ∧
          (ch ≠ c ∨ 0 < d) then scanOk c t d
      else none) := rfl

theorem scanOk_append (c : Char) : ∀ (s t : List Char) (d : Nat),
    scanOk c (s ++ t) d =
      match scanOk c s d with
      | none => none
      | some d1 => scanOk c t d1 := by
  intro s
  induction s with
  | nil => intro t d; rfl
  | cons ch s2 ih =>
    intro t d
    rw [List.cons_append, scanOk_cons, scanOk_cons]
    by_cases h1 : ch = '{'
    · rw [if_pos h1, if_pos h1, ih]
    · rw [if_neg h1, if_neg h1]
      by_cases h2 : ch = '}'
      · rw [if_pos h2, if_pos h2]
        cases d with
        | zero => rfl
        | succ d2 => exact ih t d2
      · rw [if_neg h2, if_neg h2]
        by_cases h3 : (plainChar ch || ch = ' ' || ch = ',' || ch = '=') = true ∧
            (ch ≠ c ∨ 0 < d)
        · rw [if_pos h3, if_pos h3, ih]
        · rw [if_neg h3, if_neg h3]

theorem scan_plain {c : Char} (hc : c = ',' ∨ c = '=') :
    ∀ (k : List Char) (d : Nat), k.all plainChar = true → scanOk c k d = some d := by
  intro k
  induction k with
  | nil => intro d _; rfl
  | cons ch t ih =>
    intro d hall
    rw [List.all_cons, Bool.and_eq_true] at hall
    obtain ⟨hch, ht⟩ := hall
    have hs := plainChar_not_special hch
    have hnc : ch ≠ c := by
      rcases hc with h | h
      · rw [h]; exact hs.2.2.2.2.1
      · rw [h]; exact hs.2.2.2.2.2.1
    rw [scanOk_cons, if_neg hs.2.2.2.2.2.2.1, if_neg hs.2.2.2.2.2.2.2.1,
      if_pos ⟨by rw [hch]; rfl, Or.inl hnc⟩]
    exact ih d ht

theorem scan_space {c : Char} (hc : c = ',' ∨ c = '=') (t : List Char) (d : Nat) :
    scanOk c (' ' :: t) d = scanOk c t d := by
  have hnc : (' ' : Char) ≠ c := by
    rcases hc with h | h <;> subst h <;> decide
  rw [scanOk_cons, if_neg (by decide), if_neg (by decide),
    if_pos ⟨by decide, Or.inl hnc⟩]

theorem splitAux_open (c ch : Char) (s : List Char) (prev : Option Char)
    (stack : List Char) (ins : Bool) (i : Nat) (ho : openB ch = true)
    (hcond : 0 < i ∧ prev ≠ some '\\') :
    splitAux c (ch :: s) prev stack ins i =
      splitAux c s (some ch) (ch :: stack) ins (i + 1) := by
  rw [splitAux_cons, if_pos ho, if_pos hcond]

theorem splitAux_close (c ch : Char) (s : List Char) (prev : Option Char)
    (hd : Char) (tl : List Char) (ins : Bool) (i : Nat) (ho : openB ch = false)
    (hc2 : closeB ch = true) (hcond : 0 < i ∧ prev ≠ some '\\') :
    splitAux c (ch :: s) prev (hd :: tl) ins i =
      splitAux c s (some ch) tl ins (i + 1) := by
  rw [splitAux_cons, if_neg (by rw [ho]; exact fun hh => nomatch hh), if_pos hc2,
    if_pos hcond]

theorem splitAux_other (c ch : Char) (s : List Char) (prev : Option Char)
    (stack : List Char) (ins : Bool) (i : Nat) (ho : openB ch = false)
    (hc2 : closeB ch = false) (hq : quoteB ch = false) (hne : ch ≠ c) :
    splitAux c (ch :: s) prev stack ins i =
      splitAux c s (some ch) stack ins (i + 1) := by
  rw [splitAux_cons, if_neg (by rw [ho]; exact fun hh => nomatch hh),
    if_neg (by rw [hc2]; exact fun hh => nomatch hh),
    if_neg (by rw [hq]; exact fun hh => nomatch hh), if_neg hne]

theorem splitAux_char_skip (c ch : Char) (s : List Char) (prev : Option Char)
    (stack : List Char) (ins : Bool) (i : Nat) (ho : openB ch = false)
    (hc2 : closeB ch = false) (hq : quoteB ch = false) (heqc : ch = c)
    (hst : ¬(stack.isEmpty = true ∧ ins = false)) :
    splitAux c (ch :: s) prev stack ins i =
      splitAux c s (some ch) stack ins (i + 1) := by
  rw [splitAux_cons, if_neg (by rw [ho]; exact fun hh => nomatch hh),
    if_neg (by rw [hc2]; exact fun hh => nomatch hh),
    if_neg (by rw [hq]; exact fun hh => nomatch hh), if_pos heqc, if_neg hst]

theorem splitAux_break (c ch : Char) (s : List Char) (prev : Option Char)
    (stack : List Char) (ins : Bool) (i : Nat) (ho : openB ch = false)
    (hc2 : closeB ch = false) (hq : quoteB ch = false) (heqc : ch = c)
    (hst : stack.isEmpty = true ∧ ins = false) :
    splitAux c (ch :: s) prev stack ins i = .ok i := by
  rw [splitAux_cons, if_neg (by rw [ho]; exact fun hh => nomatch hh),
    if_neg (by rw [hc2]; exact fun hh => nomatch hh),
    if_neg (by rw [hq]; exact fun hh => nomatch hh), if_pos heqc, if_pos hst]

theorem scan_pass (c : Char) :
    ∀ (t : List Char) (d d2 : Nat), scanOk c t d = some d2 →
    ∀ (rest : List Char) (prev : Option Char) (i : Nat) (s0 : List Char),
      prev ≠ some '\\' → 1 ≤ i →
      ∃ q : Option Char, q ≠ some '\\' ∧
        splitAux c (t ++ rest) prev (List.replicate d '{' ++ s0) false i =
          splitAux c rest q (List.replicate d2 '{' ++ s0) false (i + t.length) := by
  intro t
  induction t with
  | nil =>
    intro d d2 h rest prev i s0 hp hi
    have hd : d = d2 := by
      have : (some d : Option Nat) = some d2 := h
      exact Option.some.injEq _ _ ▸ this
    subst hd
    exact ⟨prev, hp, by rw [List.nil_append, List.length_nil, Nat.add_zero]⟩
  | cons ch t2 ih =>
    intro d d2 h rest prev i s0 hp hi
    rw [scanOk_cons] at h
    rw [List.cons_append]
    by_cases h1 : ch = '{'
    · subst h1
      rw [if_pos rfl] at h
      rw [splitAux_open c '{' (t2 ++ rest) prev _ false i (by decide) ⟨by omega, hp⟩]
      have hst : ('{' :: (List.replicate d '{' ++ s0)) =
          List.replicate (d + 1) '{' ++ s0 := by
        rw [List.replicate_succ, List.cons_append]
      rw [hst]
      obtain ⟨q, hq, heq⟩ := ih (d + 1) d2 h rest (some '{') (i + 1) s0
        (by intro hc; cases hc) (by omega)
      refine ⟨q, hq, ?_⟩
      rw [heq]
      congr 1
      simp only [List.length_cons]
      omega
    · rw [if_neg h1] at h
      by_cases h2 : ch = '}'
      · subst h2
        rw [if_pos rfl] at h
        cases d with
        | zero => cases h
        | succ d3 =>
          rw [List.replicate_succ, List.cons_append]
          rw [splitAux_close c '}' (t2 ++ rest) prev '{'
            (List.replicate d3 '{' ++ s0) false i (by decide) (by decide)
            ⟨by omega, hp⟩]
          obtain ⟨q, hq, heq⟩ := ih d3 d2 h rest (some '}') (i + 1) s0
            (by intro hc; cases hc) (by omega)
          refine ⟨q, hq, ?_⟩
          rw [heq]
          congr 1
          simp only [List.length_cons]
          omega
      · rw [if_neg h2] at h
        by_cases h3 : (plainChar ch || ch = ' ' || ch = ',' || ch = '=') = true ∧
            (ch ≠ c ∨ 0 < d)
        · rw [if_pos h3] at h
          have hcls : openB ch = false ∧ closeB ch = false ∧ quoteB ch = false := by
            rcases Bool.or_eq_true_iff.mp h3.1 with h4 | h4
            · rcases Bool.or_eq_true_iff.mp h4 with h5 | h5
              · rcases Bool.or_eq_true_iff.mp h5 with h6 | h6
                · have hs := plainChar_not_special h6
                  exact ⟨hs.1, hs.2.1, hs.2.2.1⟩
                · have : ch = ' ' := by simpa using h6
                  subst this
                  exact ⟨rfl, rfl, rfl⟩
              · have : ch = ',' := by simpa using h5
                subst this
                exact ⟨rfl, rfl, rfl⟩
            · have : ch = '=' := by simpa using h4
              subst this
              exact ⟨rfl, rfl, rfl⟩
          have hstep : splitAux c (ch :: (t2 ++ rest)) prev
              (List.replicate d '{' ++ s0) false i =
              splitAux c (t2 ++ rest) (some ch) (List.replicate d '{' ++ s0)
                false (i + 1) := by
            by_cases hc : ch = c
            · rcases h3.2 with hne | hdpos
              · exact absurd hc hne
              · refine splitAux_char_skip c ch (t2 ++ rest) prev _ false i
                  hcls.1 hcls.2.1 hcls.2.2 hc ?_
                intro ⟨hemp, _⟩
                cases d with
                | zero => exact absurd hdpos (by omega)
                | succ d4 =>
                  rw [List.replicate_succ, List.cons_append] at hemp
                  cases hemp
            · exact splitAux_other c ch (t2 ++ rest) prev _ false i
                hcls.1 hcls.2.1 hcls.2.2 hc
          rw [hstep]
          obtain ⟨q, hq, heq⟩ := ih d d2 h rest (some ch) (i + 1) s0
            (by
              intro hcq
              have : ch = '\\' := by
                have := Option.some.injEq ch '\\' ▸ hcq
                simpa using hcq
              subst this
              rcases Bool.or_eq_true_iff.mp h3.1 with h4 | h4
              · rcases Bool.or_eq_true_iff.mp h4 with h5 | h5
                · rcases Bool.or_eq_true_iff.mp h5 with h6 | h6
                  · exact absurd h6 (by decide)
                  · exact absurd h6 (by decide)
                · exact absurd h5 (by decide)
              · exact absurd h4 (by decide))
            (by omega)
          refine ⟨q, hq, ?_⟩
          rw [heq]
          congr 1
          simp only [List.length_cons]
          omega
        · rw [if_neg h3] at h
          cases h

theorem plain_ne_split {p0 c : Char} (hp0 : plainChar p0 = true)
    (hc : c = ',' ∨ c = '=') : p0 ≠ c := by
  have hs := plainChar_not_special hp0
  rcases hc with h | h
  · rw [h]; exact hs.2.2.2.2.1
  · rw [h]; exact hs.2.2.2.2.2.1

theorem split_char_class {c : Char} (hc : c = ',' ∨ c = '=') :
    openB c = false ∧ closeB c = false ∧ quoteB c = false := by
  rcases hc with h | h <;> subst h <;> exact ⟨rfl, rfl, rfl⟩

theorem splitAux_prefix {c : Char} (hc : c = ',' ∨ c = '=') {p0 : Char}
    (hp0 : plainChar p0 = true) {t : List Char} (hscan : scanOk c t 0 = some 0)
    (tail : List Char) :
    ∃ q : Option Char, q ≠ some '\\' ∧
      splitAux c ((p0 :: t) ++ tail) none [] false 0 =
        splitAux c tail q [] false ((p0 :: t).length) := by
  have hs := plainChar_not_special hp0
  rw [List.cons_append]
  rw [splitAux_other c p0 (t ++ tail) none [] false 0 hs.1 hs.2.1 hs.2.2.1
    (plain_ne_split hp0 hc)]
  obtain ⟨q, hq, heq⟩ := scan_pass c t 0 0 hscan tail (some p0) 1 []
    (by
      intro hcq
      have : p0 = '\\' := by simpa using hcq
      exact absurd this hs.2.2.2.2.2.2.2.2)
    (by omega)
  simp only [List.replicate_zero, List.nil_append] at heq
  refine ⟨q, hq, ?_⟩
  rw [heq]
  congr 1
  simp only [List.length_cons]
  omega

theorem split_break {c : Char} (hc : c = ',' ∨ c = '=') {p0 : Char}
    (hp0 : plainChar p0 = true) {t : List Char} (hscan : scanOk c t 0 = some 0)
    (rest : List Char) :
    split_at_char_outside_bracket ((p0 :: t) ++ c :: rest) c =
      .ok (strip (p0 :: t), strip rest) := by
  have hcls := split_char_class hc
  obtain ⟨q, hq, heq⟩ := splitAux_prefix hc hp0 hscan (c :: rest)
  have hbreak : splitAux c (c :: rest) q [] false ((p0 :: t).length) =
      .ok ((p0 :: t).length) :=
    splitAux_break c c rest q [] false _ hcls.1 hcls.2.1 hcls.2.2 rfl ⟨rfl, rfl⟩
  have haux : splitAux c ((p0 :: t) ++ c :: rest) none [] false 0 =
      .ok ((p0 :: t).length) := by rw [heq, hbreak]
  have hlt : (p0 :: t).length < ((p0 :: t) ++ c :: rest).length := by
    simp only [List.length_append, List.length_cons]
    omega
  rw [split_unfold_ok haux, if_pos hlt]
  have htake : ((p0 :: t) ++ c :: rest).take ((p0 :: t).length) = p0 :: t :=
    List.take_left (p0 :: t) (c :: rest)
  have hdrop : ((p0 :: t) ++ c :: rest).drop ((p0 :: t).length + 1) = rest := by
    have hre : (p0 :: t) ++ c :: rest = ((p0 :: t) ++ [c]) ++ rest := by
      rw [List.append_assoc]
      rfl
    rw [hre]
    have hlen : (p0 :: t).length + 1 = ((p0 :: t) ++ [c]).length := by
      simp [List.length_append]
    rw [hlen, List.drop_left]
  rw [htake, hdrop]

theorem split_end {c : Char} (hc : c = ',' ∨ c = '=') {p0 : Char}
    (hp0 : plainChar p0 = true) {t : List Char} (hscan : scanOk c t 0 = some 0) :
    split_at_char_outside_bracket (p0 :: t) c = .ok (strip (p0 :: t), []) := by
  obtain ⟨q, hq, heq⟩ := splitAux_prefix hc hp0 hscan []
  rw [List.append_nil] at heq
  have haux : splitAux c (p0 :: t) none [] false 0 = .ok ((p0 :: t).length) := by
    rw [heq]
    rfl
  rw [split_unfold_ok haux, if_neg (by omega)]

mutual

/-- The well-formed core of the argument grammar: every key is nonempty and
made of plain characters, and every value is a nonempty well-formed `Arg`.
(The round-trip claim fails outside this core; see `C1_counterexample`.) -/
def KeyVal.WF : KeyVal → Bool
  | .mk k none => plainKey k
  | .mk k (some v) => plainKey k && !v.entries.isEmpty && Arg.WF v

def Arg.WF : Arg → Bool
  | .mk kvs => listWF kvs

def listWF : List KeyVal → Bool
  | [] => true
  | kv :: rest => KeyVal.WF kv && listWF rest

end

example : Arg.WF (Arg.mk [KeyVal.mk ['k']
  (some (Arg.mk [KeyVal.mk ['a'] none]))]) = true := by decide

theorem plainKey_edges {k : List Char} (h : plainKey k = true) :
    headPlain k = true ∧ lastOk k = true ∧ k ≠ [] ∧ k.all plainChar = true := by
  rw [plainKey, Bool.and_eq_true] at h
  obtain ⟨hne, hall⟩ := h
  have hne2 : k ≠ [] := by
    intro hc
    rw [hc] at hne
    cases hne
  refine ⟨?_, ?_, hne2, hall⟩
  · cases k with
    | nil => exact absurd rfl hne2
    | cons x t =>
      rw [headPlain]
      rw [List.all_cons, Bool.and_eq_true] at hall
      exact hall.1
  · have hmem := List.getLast_mem hne2
    rw [lastOk, List.getLast?_eq_getLast k hne2]
    show (plainChar (k.getLast hne2) || decide (k.getLast hne2 = '}')) = true
    rw [List.all_eq_true] at hall
    rw [hall _ hmem]
    rfl

theorem headPlain_ne_nil {s : List Char} (h : headPlain s = true) : s ≠ [] := by
  intro hc
  rw [hc] at h
  cases h

theorem headPlain_append {s : List Char} (t : List Char) (h : s ≠ []) :
    headPlain (s ++ t) = headPlain s := by
  cases s with
  | nil => exact absurd rfl h
  | cons x s2 => rfl

theorem lastOk_append (s : List Char) {b : Char} {t : List Char} :
    lastOk (s ++ b :: t) = lastOk (b :: t) := by
  rw [lastOk, lastOk, List.getLast?_append_cons]

theorem lastOk_concat (s : List Char) : lastOk (s ++ ['}']) = true := by
  rw [lastOk, List.getLast?_concat]
  rfl

theorem lastOk_ne_nil {s : List Char} (h : lastOk s = true) : s ≠ [] := by
  intro hc
  rw [hc] at h
  cases h

theorem lstrip_ws_cons {x : Char} (t : List Char) (h : pyWS x = true) :
    lstrip (x :: t) = lstrip t := by
  rw [lstrip, List.dropWhile_cons, if_pos (by rw [h])]
  rfl

theorem lstrip_of_head {x : Char} (t : List Char) (h : pyWS x = false) :
    lstrip (x :: t) = x :: t := by
  rw [lstrip, List.dropWhile_cons, if_neg (by rw [h]; exact fun hc => nomatch hc)]

theorem rstrip_append_ws (s : List Char) {x : Char} (h : pyWS x = true) :
    rstrip (s ++ [x]) = rstrip s := by
  rw [rstrip, rstrip, List.reverse_append]
  simp only [List.reverse_cons, List.reverse_nil, List.nil_append,
    List.singleton_append]
  rw [List.dropWhile_cons, if_pos (by rw [h])]

theorem rstrip_of_lastOk {s : List Char} (h : lastOk s = true) : rstrip s = s := by
  cases hy : s.getLast? with
  | none =>
    rw [lastOk, hy] at h
    cases h
  | some y => exact rstrip_of_last hy (lastOk_not_ws hy h)

theorem strip_of_edges {s : List Char} (h1 : lstrip s = s) (h2 : rstrip s = s) :
    strip s = s := by
  rw [strip, h1, h2]

theorem strip_space_cons {V : List Char} (h1 : lstrip V = V) (h2 : rstrip V = V) :
    strip (' ' :: V) = V := by
  rw [strip, lstrip_ws_cons V (by decide), h1, h2]

theorem strip_key_space {k0 : Char} {kt : List Char} (h0 : pyWS k0 = false)
    (h2 : rstrip (k0 :: kt) = k0 :: kt) :
    strip ((k0 :: kt) ++ [' ']) = k0 :: kt := by
  rw [strip, List.cons_append, lstrip_of_head _ h0, ← List.cons_append,
    rstrip_append_ws _ (by decide), h2]

theorem headPlain_not_ws {s : List Char} (h : headPlain s = true) :
    lstrip s = s := lstrip_of_headPlain h

theorem lastOk_rstrip {s : List Char} (h : lastOk s = true) : rstrip s = s :=
  rstrip_of_lastOk h

theorem strip_of_headPlain_lastOk {s : List Char} (h1 : headPlain s = true)
    (h2 : lastOk s = true) : strip s = s :=
  strip_of_edges (lstrip_of_headPlain h1) (rstrip_of_lastOk h2)

theorem wf_keyval_none (k : List Char) :
    KeyVal.WF (KeyVal.mk k none) = plainKey k := rfl

theorem wf_keyval_some (k : List Char) (v : Arg) :
    KeyVal.WF (KeyVal.mk k (some v)) =
      (plainKey k && !v.entries.isEmpty && Arg.WF v) := rfl

theorem wf_arg_mk (kvs : List KeyVal) : Arg.WF (Arg.mk kvs) = listWF kvs := rfl

theorem wf_list_cons (kv : KeyVal) (rest : List KeyVal) :
    listWF (kv :: rest) = (KeyVal.WF kv && listWF rest) := rfl

theorem render_keyval_none (k : List Char) :
    KeyVal.render (KeyVal.mk k none) = k := rfl

theorem render_eq_renderList : ∀ kvs : List KeyVal,
    Arg.render (Arg.mk kvs) = renderList kvs := by
  intro kvs
  cases kvs with
  | nil => rfl
  | cons kv0 rest =>
    cases rest with
    | cons kv1 rest2 => rfl
    | nil =>
      cases kv0 with
      | mk k vv =>
        cases vv with
        | none => rfl
        | some w => rfl

theorem renderList_cons₂ (kv kv1 : KeyVal) (rest : List KeyVal) :
    renderList (kv :: kv1 :: rest) =
      KeyVal.render kv ++ ',' :: ' ' :: renderList (kv1 :: rest) := rfl

theorem renderList_single (kv : KeyVal) : renderList [kv] = KeyVal.render kv := rfl

/-- The value text emitted after `" = "` by `KeyVal.__str__` for a
well-formed value: the bare rendering for a single valueless entry, the
braced rendering otherwise. -/
def valueText (v : Arg) : List Char :=
  match v.entries with
  | [kv0] =>
    match kv0 with
    | KeyVal.mk k2 none => k2
    | _ => '{' :: (Arg.render v ++ ['}'])
  | _ => '{' :: (Arg.render v ++ ['}'])

theorem render_keyval_some {k : List Char} {v : Arg}
    (hwf : KeyVal.WF (KeyVal.mk k (some v)) = true) :
    KeyVal.render (KeyVal.mk k (some v)) = k ++ ' ' :: '=' :: ' ' :: valueText v := by
  rw [wf_keyval_some, Bool.and_eq_true, Bool.and_eq_true] at hwf
  obtain ⟨⟨_, hne⟩, hwfv⟩ := hwf
  cases v with
  | mk kvs =>
    cases kvs with
    | nil => cases hne
    | cons kv0 rest =>
      cases rest with
      | cons kv1 rest2 => rfl
      | nil =>
        cases kv0 with
        | mk k2 vv =>
          cases vv with
          | none => rfl
          | some w =>
            cases w with
            | mk ws =>
              cases ws with
              | nil =>
                exfalso
                rw [wf_arg_mk, wf_list_cons, Bool.and_eq_true, wf_keyval_some,
                  Bool.and_eq_true, Bool.and_eq_true] at hwfv
                exact absurd hwfv.1.1.2 (by decide)
              | cons w0 wrest => rfl

theorem not_isEmpty_ne_nil {l : List KeyVal} (h : (!l.isEmpty) = true) : l ≠ [] := by
  intro hc
  rw [hc] at h
  cases h

theorem braced_facts (X : List Char) :
    lstrip ('{' :: (X ++ ['}'])) = '{' :: (X ++ ['}']) ∧
    rstrip ('{' :: (X ++ ['}'])) = '{' :: (X ++ ['}']) ∧
    lastOk ('{' :: (X ++ ['}'])) = true := by
  have hL : lastOk ('{' :: (X ++ ['}'])) = true := by
    rw [show '{' :: (X ++ ['}']) = ('{' :: X) ++ ['}'] from rfl]
    exact lastOk_concat _
  exact ⟨lstrip_of_head _ (by decide), rstrip_of_lastOk hL, hL⟩

theorem valueText_facts : ∀ v : Arg, Arg.WF v = true → v.entries ≠ [] →
    lstrip (valueText v) = valueText v ∧ rstrip (valueText v) = valueText v ∧
    lastOk (valueText v) = true := by
  intro v hwf hne
  cases v with
  | mk kvs =>
    cases kvs with
    | nil => exact absurd (rfl : (Arg.mk [] : Arg).entries = []) hne
    | cons kv0 rest =>
      cases rest with
      | cons kv1 rest2 => exact braced_facts _
      | nil =>
        cases kv0 with
        | mk k2 vv =>
          cases vv with
          | some w => exact braced_facts _
          | none =>
            have hk2 : plainKey k2 = true := by
              rw [wf_arg_mk, wf_list_cons, Bool.and_eq_true, wf_keyval_none] at hwf
              exact hwf.1
            have he := plainKey_edges hk2
            exact ⟨lstrip_of_headPlain he.1, rstrip_of_lastOk he.2.1, he.2.1⟩

theorem edge_keyval : ∀ kv : KeyVal, KeyVal.WF kv = true →
    headPlain (KeyVal.render kv) = true ∧ lastOk (KeyVal.render kv) = true := by
  intro kv hwf
  cases kv with
  | mk k vv =>
    cases vv with
    | none =>
      rw [render_keyval_none]
      rw [wf_keyval_none] at hwf
      have he := plainKey_edges hwf
      exact ⟨he.1, he.2.1⟩
    | some v =>
      have hR := render_keyval_some hwf
      rw [hR]
      rw [wf_keyval_some, Bool.and_eq_true, Bool.and_eq_true] at hwf
      obtain ⟨⟨hk, hne0⟩, hwfv⟩ := hwf
      have hne := not_isEmpty_ne_nil hne0
      have hek := plainKey_edges hk
      constructor
      · rw [headPlain_append _ hek.2.2.1]
        exact hek.1
      · have hvt := valueText_facts v hwfv hne
        rw [lastOk_append]
        cases hvtc : valueText v with
        | nil =>
          rw [hvtc] at hvt
          exact absurd hvt.2.2 (by decide)
        | cons c t =>
          rw [show (' ' :: '=' :: ' ' :: c :: t) = ([' ', '=', ' '] ++ c :: t)
            from rfl, lastOk_append, ← hvtc]
          exact hvt.2.2

theorem edge_renderList : ∀ kvs : List KeyVal, listWF kvs = true → kvs ≠ [] →
    headPlain (renderList kvs) = true ∧ lastOk (renderList kvs) = true := by
  intro kvs
  induction kvs with
  | nil => intro _ hne; exact absurd rfl hne
  | cons kv rest ih =>
    intro hwf _
    rw [wf_list_cons, Bool.and_eq_true] at hwf
    obtain ⟨hkv, hrest⟩ := hwf
    have hekv := edge_keyval kv hkv
    cases rest with
    | nil =>
      rw [renderList_single]
      exact hekv
    | cons kv1 rest2 =>
      rw [renderList_cons₂]
      have hih := ih hrest (by intro hc; cases hc)
      constructor
      · rw [headPlain_append _ (headPlain_ne_nil hekv.1)]
        exact hekv.1
      · rw [lastOk_append]
        cases hRc : renderList (kv1 :: rest2) with
        | nil =>
          rw [hRc] at hih
          exact absurd hih.1 (by decide)
        | cons x xs =>
          rw [show (',' :: ' ' :: x :: xs) = ([',', ' '] ++ x :: xs) from rfl,
            lastOk_append, ← hRc]
          exact hih.2

theorem scan_open (c : Char) (t : List Char) (d : Nat) :
    scanOk c ('{' :: t) d = scanOk c t (d + 1) := by
  rw [scanOk_cons, if_pos rfl]

theorem scan_close (c : Char) (t : List Char) (d : Nat) :
    scanOk c ('}' :: t) (d + 1) = scanOk c t d := by
  rw [scanOk_cons, if_neg (by decide : ¬('}' = '{')), if_pos rfl]

theorem scan_eq_char (t : List Char) (d : Nat) :
    scanOk ',' ('=' :: t) d = scanOk ',' t d := by
  rw [scanOk_cons, if_neg (by decide), if_neg (by decide),
    if_pos ⟨by decide, Or.inl (by decide)⟩]

theorem scan_comma_pos (t : List Char) (d : Nat) (hd : 1 ≤ d) :
    scanOk ',' (',' :: t) d = scanOk ',' t d := by
  rw [scanOk_cons, if_neg (by decide), if_neg (by decide),
    if_pos ⟨by decide, Or.inr (by omega)⟩]

mutual

theorem scan_keyval (kv : KeyVal) : KeyVal.WF kv = true → ∀ d : Nat,
    scanOk ',' (KeyVal.render kv) d = some d := by
  intro hwf d
  cases kv with
  | mk k vv =>
    cases vv with
    | none =>
      rw [render_keyval_none]
      rw [wf_keyval_none] at hwf
      exact scan_plain (Or.inl rfl) k d (plainKey_edges hwf).2.2.2
    | some v =>
      rw [render_keyval_some hwf]
      rw [wf_keyval_some, Bool.and_eq_true, Bool.and_eq_true] at hwf
      obtain ⟨⟨hk, hne0⟩, hwfv⟩ := hwf
      have hne := not_isEmpty_ne_nil hne0
      rw [scanOk_append,
        scan_plain (Or.inl rfl) k d (plainKey_edges hk).2.2.2]
      show scanOk ',' (' ' :: '=' :: ' ' :: valueText v) d = some d
      rw [scan_space (Or.inl rfl), scan_eq_char, scan_space (Or.inl rfl)]
      cases v with
      | mk kvs =>
        cases kvs with
        | nil => exact absurd (rfl : (Arg.mk [] : Arg).entries = []) hne
        | cons kv0 rest =>
          cases rest with
          | cons kv1 rest2 =>
            show scanOk ',' ('{' :: (Arg.render (Arg.mk (kv0 :: kv1 :: rest2)) ++
              ['}'])) d = some d
            rw [scan_open, render_eq_renderList, scanOk_append,
              scan_renderList (kv0 :: kv1 :: rest2) hwfv (d + 1) (by omega)]
            show scanOk ',' ['}'] (d + 1) = some d
            rw [scan_close]
            rfl
          | nil =>
            cases kv0 with
            | mk k2 vv2 =>
              cases vv2 with
              | none =>
                show scanOk ',' k2 d = some d
                have hk2 : plainKey k2 = true := by
                  rw [wf_arg_mk, wf_list_cons, Bool.and_eq_true,
                    wf_keyval_none] at hwfv
                  exact hwfv.1
                exact scan_plain (Or.inl rfl) k2 d (plainKey_edges hk2).2.2.2
              | some w =>
                show scanOk ','
                  ('{' :: (Arg.render (Arg.mk [KeyVal.mk k2 (some w)]) ++ ['}'])) d =
                  some d
                rw [scan_open, render_eq_renderList, scanOk_append,
                  scan_renderList [KeyVal.mk k2 (some w)] hwfv (d + 1) (by omega)]
                show scanOk ',' ['}'] (d + 1) = some d
                rw [scan_close]
                rfl
termination_by 2 * sizeOf kv

theorem scan_renderList (kvs : List KeyVal) : listWF kvs = true → ∀ d : Nat,
    1 ≤ d → scanOk ',' (renderList kvs) d = some d := by
  intro hwf d hd
  cases kvs with
  | nil => rfl
  | cons kv rest =>
    rw [wf_list_cons, Bool.and_eq_true] at hwf
    obtain ⟨hkv, hrest⟩ := hwf
    cases rest with
    | nil =>
      rw [renderList_single]
      exact scan_keyval kv hkv d
    | cons kv1 rest2 =>
      rw [renderList_cons₂, scanOk_append, scan_keyval kv hkv d]
      show scanOk ',' (',' :: ' ' :: renderList (kv1 :: rest2)) d = some d
      rw [scan_comma_pos _ _ hd, scan_space (Or.inl rfl)]
      exact scan_renderList (kv1 :: rest2) hrest d hd
termination_by 2 * sizeOf kvs + 1

end

theorem parse_valueF_succ (fuel : Nat) (value : List Char) :
    parse_valueF (fuel + 1) value =
      (if value = [] then .ok none
      else
        match strip value with
        | [] => .error .indexError
        | c0 :: rest =>
          match parse_argsF fuel (if c0 = '{' ∧ (c0 :: rest).getLast? = some '}'
              then strip rest.dropLast else c0 :: rest) with
          | .error e => .error e
          | .ok kvs => .ok (some (Arg.mk kvs))) := rfl

theorem parse_valueF_step {value : List Char} (fuel : Nat) {c0 : Char}
    {rest : List Char} (hne : ¬(value = [])) (hstrip : strip value = c0 :: rest) :
    parse_valueF (fuel + 1) value =
      match parse_argsF fuel (if c0 = '{' ∧ (c0 :: rest).getLast? = some '}'
          then strip rest.dropLast else c0 :: rest) with
      | .error e => .error e
      | .ok kvs => .ok (some (Arg.mk kvs)) := by
  rw [parse_valueF_succ, if_neg hne]
  simp only [hstrip]

theorem mkKeyValStrF_succ (fuel : Nat) (key value : List Char) :
    mkKeyValStrF (fuel + 1) key value =
      (match parse_valueF fuel value with
      | .error e => .error e
      | .ok none => .ok (KeyVal.mk key none)
      | .ok (some (Arg.mk [])) => .ok (KeyVal.mk key none)
      | .ok (some (Arg.mk (kv :: kvs))) =>
        .ok (KeyVal.mk key (some (Arg.mk (kv :: kvs))))) := rfl

mutual

theorem parse_segment (kv : KeyVal) : KeyVal.WF kv = true →
    (match kv with
     | KeyVal.mk k none =>
       split_at_char_outside_bracket (KeyVal.render (KeyVal.mk k none)) '=' =
         .ok (k, [])
     | KeyVal.mk k (some v) =>
       split_at_char_outside_bracket (KeyVal.render (KeyVal.mk k (some v))) '=' =
         .ok (k, valueText v) ∧
       valueText v ≠ [] ∧
       (∀ fuel : Nat, 4 * (valueText v).length + 4 ≤ fuel →
         mkKeyValStrF fuel k (valueText v) = .ok (KeyVal.mk k (some v)))) := by
  intro hwf
  cases kv with
  | mk k vv =>
    cases vv with
    | none =>
      show split_at_char_outside_bracket (KeyVal.render (KeyVal.mk k none)) '=' =
        .ok (k, [])
      rw [render_keyval_none]
      rw [wf_keyval_none] at hwf
      have he := plainKey_edges hwf
      cases hk : k with
      | nil => exact absurd hk he.2.2.1
      | cons k0 kt =>
        have hall : (k0 :: kt).all plainChar = true := by rw [← hk]; exact he.2.2.2
        rw [List.all_cons, Bool.and_eq_true] at hall
        rw [split_end (Or.inr rfl) hall.1
          (scan_plain (Or.inr rfl) kt 0 hall.2)]
        rw [← hk, strip_of_headPlain_lastOk he.1 he.2.1]
    | some v =>
      have hR := render_keyval_some hwf
      rw [wf_keyval_some, Bool.and_eq_true, Bool.and_eq_true] at hwf
      obtain ⟨⟨hk, hne0⟩, hwfv⟩ := hwf
      have hne := not_isEmpty_ne_nil hne0
      have he := plainKey_edges hk
      have hvt := valueText_facts v hwfv hne
      have hvtne : valueText v ≠ [] := lastOk_ne_nil hvt.2.2
      refine ⟨?_, hvtne, ?_⟩
      · show split_at_char_outside_bracket
          (KeyVal.render (KeyVal.mk k (some v))) '=' = .ok (k, valueText v)
        rw [hR]
        cases hkd : k with
        | nil => exact absurd hkd he.2.2.1
        | cons k0 kt =>
          have hall : (k0 :: kt).all plainChar = true := by
            rw [← hkd]; exact he.2.2.2
          rw [List.all_cons, Bool.and_eq_true] at hall
          have hdecomp : (k0 :: kt) ++ ' ' :: '=' :: ' ' :: valueText v =
              (k0 :: (kt ++ [' '])) ++ '=' :: (' ' :: valueText v) := by
            simp
          rw [hdecomp]
          have hscan : scanOk '=' (kt ++ [' ']) 0 = some 0 := by
            rw [scanOk_append, scan_plain (Or.inr rfl) kt 0 hall.2]
            show scanOk '=' [' '] 0 = some 0
            rw [scan_space (Or.inr rfl)]
            rfl
          rw [split_break (Or.inr rfl) hall.1 hscan (' ' :: valueText v)]
          have hs1 : strip (k0 :: (kt ++ [' '])) = k0 :: kt := by
            rw [show (k0 :: (kt ++ [' '])) = ((k0 :: kt) ++ [' ']) from rfl]
            refine strip_key_space ?_ ?_
            · exact (plainChar_not_special hall.1).2.2.2.1
            · rw [← hkd]
              exact rstrip_of_lastOk he.2.1
          have hs2 : strip (' ' :: valueText v) = valueText v :=
            strip_space_cons hvt.1 hvt.2.1
          rw [hs1, hs2]
      · intro fuel hfuel
        obtain ⟨g, hg⟩ : ∃ g, fuel = g + 1 := ⟨fuel - 1, by omega⟩
        subst hg
        rw [mkKeyValStrF_succ]
        rw [parse_valueText v hwfv hne g (by omega)]
        cases v with
        | mk ventries =>
          cases ventries with
          | nil => exact absurd (rfl : (Arg.mk [] : Arg).entries = []) hne
          | cons e0 erest => rfl
termination_by 2 * sizeOf kv + 1

theorem parse_valueText (v : Arg) : Arg.WF v = true → v.entries ≠ [] →
    ∀ fuel : Nat, 4 * (valueText v).length + 3 ≤ fuel →
    parse_valueF fuel (valueText v) = .ok (some v) := by
  intro hwf hne fuel hfuel
  obtain ⟨g, hg⟩ : ∃ g, fuel = g + 1 := ⟨fuel - 1, by omega⟩
  subst hg
  have hvt := valueText_facts v hwf hne
  have hvtne : valueText v ≠ [] := lastOk_ne_nil hvt.2.2
  cases v with
  | mk kvs =>
    cases kvs with
    | nil => exact absurd (rfl : (Arg.mk [] : Arg).entries = []) hne
    | cons kv0 rest =>
      by_cases hsingle : ∃ k2, kv0 = KeyVal.mk k2 none ∧ rest = []
      · obtain ⟨k2, hkv0, hrest⟩ := hsingle
        subst hkv0
        subst hrest
        have hVT : valueText (Arg.mk [KeyVal.mk k2 none]) = k2 := rfl
        rw [hVT] at hvtne hfuel ⊢
        have hk2 : plainKey k2 = true := by
          rw [wf_arg_mk, wf_list_cons, Bool.and_eq_true, wf_keyval_none] at hwf
          exact hwf.1
        have he2 := plainKey_edges hk2
        have hstrip : strip k2 = k2 := strip_of_headPlain_lastOk he2.1 he2.2.1
        cases hk2d : k2 with
        | nil => exact absurd hk2d he2.2.2.1
        | cons c0 crest =>
          rw [hk2d] at hstrip hvtne hfuel
          rw [parse_valueF_step g hvtne hstrip]
          have hc0 : plainChar c0 = true := by
            have hall : (c0 :: crest).all plainChar = true := by
              rw [← hk2d]; exact he2.2.2.2
            rw [List.all_cons, Bool.and_eq_true] at hall
            exact hall.1
          rw [if_neg (by
            intro hcontra
            exact absurd hcontra.1 (plainChar_not_special hc0).2.2.2.2.2.2.1)]
          have hA : parse_argsF g (c0 :: crest) =
              .ok [KeyVal.mk (c0 :: crest) none] := by
            have := parse_renderList [KeyVal.mk k2 none]
              (by rw [wf_arg_mk] at hwf; exact hwf) g
              (by rw [renderList_single, render_keyval_none, hk2d]; omega)
            rw [renderList_single, render_keyval_none, hk2d] at this
            exact this
          rw [hA]
      · have hVT : valueText (Arg.mk (kv0 :: rest)) =
            '{' :: (Arg.render (Arg.mk (kv0 :: rest)) ++ ['}']) := by
          cases rest with
          | cons kv1 rest2 => rfl
          | nil =>
            cases kv0 with
            | mk k2 vv2 =>
              cases vv2 with
              | some w => rfl
              | none => exact absurd ⟨k2, rfl, rfl⟩ hsingle
        rw [hVT] at hvtne hfuel ⊢
        have hstrip : strip ('{' :: (Arg.render (Arg.mk (kv0 :: rest)) ++ ['}'])) =
            '{' :: (Arg.render (Arg.mk (kv0 :: rest)) ++ ['}']) := by
          have hb := braced_facts (Arg.render (Arg.mk (kv0 :: rest)))
          exact strip_of_edges hb.1 hb.2.1
        rw [parse_valueF_step g hvtne hstrip]
        rw [if_pos ⟨rfl, by
          rw [show ('{' :: (Arg.render (Arg.mk (kv0 :: rest)) ++ ['}'])) =
            (('{' :: Arg.render (Arg.mk (kv0 :: rest))) ++ ['}']) from rfl]
          exact List.getLast?_concat _⟩]
        rw [List.dropLast_concat]
        have hX := edge_renderList (kv0 :: rest)
          (by rw [wf_arg_mk] at hwf; exact hwf) (by intro hc; cases hc)
        have hstripX : strip (Arg.render (Arg.mk (kv0 :: rest))) =
            Arg.render (Arg.mk (kv0 :: rest)) := by
          rw [render_eq_renderList]
          exact strip_of_headPlain_lastOk hX.1 hX.2
        rw [hstripX]
        have hA : parse_argsF g (Arg.render (Arg.mk (kv0 :: rest))) =
            .ok (kv0 :: rest) := by
          rw [render_eq_renderList]
          refine parse_renderList (kv0 :: rest)
            (by rw [wf_arg_mk] at hwf; exact hwf) g ?_
          have hlen : ('{' :: (Arg.render (Arg.mk (kv0 :: rest)) ++ ['}'])).length =
              (renderList (kv0 :: rest)).length + 2 := by
            rw [render_eq_renderList]
            simp only [List.length_cons, List.length_append, List.length_nil]
          omega
        rw [hA]
termination_by 2 * sizeOf v

theorem parse_renderList (kvs : List KeyVal) : listWF kvs = true →
    ∀ fuel : Nat, 4 * (renderList kvs).length + 1 ≤ fuel →
    parse_argsF fuel (renderList kvs) = .ok kvs := by
  intro hwf fuel hfuel
  obtain ⟨f, hf⟩ : ∃ f, fuel = f + 1 := ⟨fuel - 1, by omega⟩
  subst hf
  cases kvs with
  | nil => exact parse_argsF_nil f
  | cons kv rest =>
    rw [wf_list_cons, Bool.and_eq_true] at hwf
    obtain ⟨hkv, hrest⟩ := hwf
    have hseg := edge_keyval kv hkv
    have hscan0 : scanOk ',' (KeyVal.render kv) 0 = some 0 := scan_keyval kv hkv 0
    cases hsegd : KeyVal.render kv with
    | nil => exact absurd (hsegd ▸ hseg.1) (by decide)
    | cons p0 t =>
      have hp0 : plainChar p0 = true := by
        have := hseg.1
        rw [hsegd] at this
        exact this
      have hscant : scanOk ',' t 0 = some 0 := by
        rw [hsegd, scanOk_cons,
          if_neg (plainChar_not_special hp0).2.2.2.2.2.2.1,
          if_neg (plainChar_not_special hp0).2.2.2.2.2.2.2.1,
          if_pos ⟨by rw [hp0]; rfl, Or.inl (plainChar_not_special hp0).2.2.2.2.1⟩]
          at hscan0
        exact hscan0
      cases rest with
      | nil =>
        have hRd : renderList [kv] = p0 :: t := by rw [renderList_single, hsegd]
        have h1 : split_at_char_outside_bracket (lstrip (renderList [kv])) ',' =
            .ok (KeyVal.render kv, []) := by
          rw [hRd, lstrip_of_head t (by
            rw [(plainChar_not_special hp0).2.2.2.1])]
          rw [split_end (Or.inl rfl) hp0 hscant, ← hsegd,
            strip_of_headPlain_lastOk hseg.1 hseg.2]
        have hps := parse_segment kv hkv
        cases kv with
        | mk k vv =>
          cases vv with
          | none =>
            rw [parse_argsF_step f (renderList [KeyVal.mk k none])
              (KeyVal.render (KeyVal.mk k none)) [] k []
              (by rw [hRd]; exact fun hc => nomatch hc) h1 hps]
            rw [if_pos rfl]
            obtain ⟨f2, hf2⟩ : ∃ f2, f = f2 + 1 := ⟨f - 1, by
              rw [hRd] at hfuel
              simp only [List.length_cons] at hfuel
              omega⟩
            subst hf2
            rw [parse_argsF_nil]
          | some v =>
            obtain ⟨hsp, hvtne, hmk⟩ := hps
            rw [parse_argsF_step f (renderList [KeyVal.mk k (some v)])
              (KeyVal.render (KeyVal.mk k (some v))) [] k (valueText v)
              (by rw [hRd]; exact fun hc => nomatch hc) h1 hsp]
            rw [if_neg hvtne]
            have hlenseg : (KeyVal.render (KeyVal.mk k (some v))).length =
                k.length + 3 + (valueText v).length := by
              rw [render_keyval_some hkv]
              simp only [List.length_append, List.length_cons]
              omega
            have hlenR : (renderList [KeyVal.mk k (some v)]).length =
                (KeyVal.render (KeyVal.mk k (some v))).length := by
              rw [renderList_single]
            rw [hmk f (by omega)]
            obtain ⟨f2, hf2⟩ : ∃ f2, f = f2 + 1 := ⟨f - 1, by omega⟩
            subst hf2
            rw [parse_argsF_nil]
      | cons kv1 rest2 =>
        have hR2 := edge_renderList (kv1 :: rest2) hrest (by intro hc; cases hc)
        have hRd : renderList (kv :: kv1 :: rest2) =
            (p0 :: t) ++ ',' :: (' ' :: renderList (kv1 :: rest2)) := by
          rw [renderList_cons₂, hsegd]
        have h1 : split_at_char_outside_bracket
            (lstrip (renderList (kv :: kv1 :: rest2))) ',' =
            .ok (KeyVal.render kv, renderList (kv1 :: rest2)) := by
          rw [hRd, List.cons_append, lstrip_of_head _ (by
            rw [(plainChar_not_special hp0).2.2.2.1]), ← List.cons_append]
          rw [split_break (Or.inl rfl) hp0 hscant (' ' :: renderList (kv1 :: rest2))]
          rw [← hsegd, strip_of_headPlain_lastOk hseg.1 hseg.2,
            strip_space_cons (lstrip_of_headPlain hR2.1) (rstrip_of_lastOk hR2.2)]
        have hlenR : (renderList (kv :: kv1 :: rest2)).length =
            (KeyVal.render kv).length + 2 + (renderList (kv1 :: rest2)).length := by
          rw [renderList_cons₂]
          simp only [List.length_append, List.length_cons]
          omega
        have hrec : parse_argsF f (renderList (kv1 :: rest2)) =
            .ok (kv1 :: rest2) :=
          parse_renderList (kv1 :: rest2) hrest f (by omega)
        have hps := parse_segment kv hkv
        cases kv with
        | mk k vv =>
          cases vv with
          | none =>
            rw [parse_argsF_step f (renderList (KeyVal.mk k none :: kv1 :: rest2))
              (KeyVal.render (KeyVal.mk k none)) (renderList (kv1 :: rest2)) k []
              (by rw [hRd]; exact fun hc => nomatch hc) h1 hps]
            rw [if_pos rfl, hrec]
          | some v =>
            obtain ⟨hsp, hvtne, hmk⟩ := hps
            rw [parse_argsF_step f
              (renderList (KeyVal.mk k (some v) :: kv1 :: rest2))
              (KeyVal.render (KeyVal.mk k (some v))) (renderList (kv1 :: rest2))
              k (valueText v)
              (by rw [hRd]; exact fun hc => nomatch hc) h1 hsp]
            rw [if_neg hvtne]
            have hlenseg : (KeyVal.render (KeyVal.mk k (some v))).length =
                k.length + 3 + (valueText v).length := by
              rw [render_keyval_some hkv]
              simp only [List.length_append, List.length_cons]
              omega
            rw [hmk f (by omega), hrec]
termination_by 2 * sizeOf kvs

end

/-- C1 (amended): the spec claims the parse/render round trip for every `Arg`
built from valid argument text; as `C1_counterexample` shows, `"b,,"` is
accepted by the parser yet violates the round trip, because an empty key
renders to nothing and its separator is then swallowed. The round trip does
hold on the well-formed fragment `Arg.WF` (every key nonempty and made of
grammar-neutral characters, every attached value a nonempty well-formed
`Arg`): for such `A`, `Arg(str(A))` parses without error to exactly the same
ordered tree of (key, value) pairs, and hence `str(Arg(str(A))) = str(A)`,
so one pass already reaches a fixed point. -/
theorem C1_roundtrip_amended (A : Arg) (hwf : Arg.WF A = true) :
    ArgOfString (Arg.render A) = .ok A ∧
    Except.map Arg.render (ArgOfString (Arg.render A)) = .ok (Arg.render A) := by
  have h : ArgOfString (Arg.render A) = .ok A := by
    cases A with
    | mk kvs =>
      rw [wf_arg_mk] at hwf
      rw [render_eq_renderList]
      have hp : parse_args (renderList kvs) = .ok kvs :=
        parse_renderList kvs hwf (4 * (renderList kvs).length + 1) (Nat.le_refl _)
      show (match parse_args (renderList kvs) with
        | Except.error e => Except.error e
        | Except.ok kvs2 => Except.ok (Arg.mk kvs2)) = Except.ok (Arg.mk kvs)
      rw [hp]
  refine ⟨h, ?_⟩
  rw [h]
  rfl

theorem C1_roundtrip_amended_witness :
    Arg.WF (Arg.mk [KeyVal.mk ['k']
        (some (Arg.mk [KeyVal.mk ['a'] none,
          KeyVal.mk ['b'] (some (Arg.mk [KeyVal.mk ['c'] none]))])),
      KeyVal.mk ['j'] none]) = true ∧
    (ArgOfString (Arg.render (Arg.mk [KeyVal.mk ['k']
        (some (Arg.mk [KeyVal.mk ['a'] none,
          KeyVal.mk ['b'] (some (Arg.mk [KeyVal.mk ['c'] none]))])),
      KeyVal.mk ['j'] none])) =
      .ok (Arg.mk [KeyVal.mk ['k']
        (some (Arg.mk [KeyVal.mk ['a'] none,
          KeyVal.mk ['b'] (some (Arg.mk [KeyVal.mk ['c'] none]))])),
      KeyVal.mk ['j'] none]) ∧
    Except.map Arg.render (ArgOfString (Arg.render (Arg.mk [KeyVal.mk ['k']
        (some (Arg.mk [KeyVal.mk ['a'] none,
          KeyVal.mk ['b'] (some (Arg.mk [KeyVal.mk ['c'] none]))])),
      KeyVal.mk ['j'] none]))) =
      .ok (Arg.render (Arg.mk [KeyVal.mk ['k']
        (some (Arg.mk [KeyVal.mk ['a'] none,
          KeyVal.mk ['b'] (some (Arg.mk [KeyVal.mk ['c'] none]))])),
      KeyVal.mk ['j'] none]))) :=
  ⟨by decide, C1_roundtrip_amended _ (by decide)⟩
